import Mathlib

/-!
# Verification of the Retro-AI-Minesweeper core engine

Shallow embedding of the repository's game engine:
* `src/utils/gameLogic.ts` — board model, reveal/flood-fill, flag toggling;
* `src/ai/hintEngine.ts` — safe-move / logical / probability hints;
* `src/ai/minePlacer.ts` — board generation with solvability retries;
* `src/ai/difficultyAdapter.ts` — adaptive mine-count calculation.

JavaScript numbers are modelled as `Int` (all quantities the engine
manipulates are small integers) except for probability / ratio values,
modelled as `Rat`.  `Math.random`-driven choices are modelled by oracle
parameters (an index stream for mine-position selection, an explicitly
supplied shuffled list for the fallback shuffle); each definition notes
the correspondence.  Mutation is modelled by immutable updates, matching
the source's copy-on-write style.
-/

namespace Minesweeper

/-- `Position` from `src/types/index.ts`: integer row/column pair. -/
structure Pos where
  row : Int
  col : Int
deriving DecidableEq, Repr

/-- `CellState` from `src/types/index.ts`. -/
inductive CellState where
  | hidden
  | revealed
  | flagged
  | mine
  | exploded
deriving DecidableEq, Repr

/-- `gameStatus` values of `BoardState`. -/
inductive GameStatus where
  | playing
  | won
  | lost
deriving DecidableEq, Repr

/-- `Cell` from `src/types/index.ts`. -/
structure Cell where
  state : CellState
  hasMine : Bool
  adjacentMines : Int
  position : Pos
deriving DecidableEq, Repr

/-- `BoardState` from `src/types/index.ts`.  `cells` is row-major
(height rows of width cells). -/
structure Board where
  cells : List (List Cell)
  width : Nat
  height : Nat
  mineCount : Int
  revealedCount : Int
  flaggedCount : Int
  gameStatus : GameStatus
  firstClick : Bool
deriving DecidableEq, Repr

/-- Placeholder cell used to totalise `board.cells[row][col]` lookups;
the source only indexes after an explicit bounds check, so on
well-formed boards this default is never observed. -/
def defaultCell : Cell :=
  { state := .hidden, hasMine := false, adjacentMines := 0, position := ⟨0, 0⟩ }

/-- `board.cells[row][col]` (total version of the source's indexing). -/
def getCell (b : Board) (p : Pos) : Cell :=
  (b.cells.getD p.row.toNat []).getD p.col.toNat defaultCell

/-- In-place update `board.cells[row][col] = c`, as an immutable update. -/
def setCell (b : Board) (p : Pos) (c : Cell) : Board :=
  let newRow := (b.cells.getD p.row.toNat []).set p.col.toNat c
  { b with cells := b.cells.set p.row.toNat newRow }

/-- The bounds check used throughout the source:
`row >= 0 && row < board.height && col >= 0 && col < board.width`. -/
def inBounds (b : Board) (p : Pos) : Prop :=
  0 ≤ p.row ∧ p.row < (b.height : Int) ∧ 0 ≤ p.col ∧ p.col < (b.width : Int)

instance (b : Board) (p : Pos) : Decidable (inBounds b p) := by
  unfold inBounds; infer_instance

/-- The board's `cells` array actually has `height` rows of `width`
cells — the shape every board built by the engine has (§3 of the spec:
a Board owns a height×width array fixed at creation). -/
def WellFormed (b : Board) : Prop :=
  b.cells.length = b.height ∧ ∀ r ∈ b.cells, r.length = b.width

/-- `createEmptyBoard(width, height)` from `src/utils/gameLogic.ts`. -/
def createEmptyBoard (width height : Nat) : Board :=
  { cells := (List.range height).map fun (row : Nat) =>
      (List.range width).map fun (col : Nat) =>
        { state := .hidden, hasMine := false, adjacentMines := 0,
          position := ⟨(row : Int), (col : Int)⟩ }
    width := width
    height := height
    mineCount := 0
    revealedCount := 0
    flaggedCount := 0
    gameStatus := .playing
    firstClick := true }

/-- `getAdjacentPositions(board, position)` from `src/utils/gameLogic.ts`:
the in-bounds Chebyshev-distance-1 neighbours, excluding the cell itself,
in the source's row-major visit order. -/
def getAdjacentPositions (b : Board) (p : Pos) : List Pos :=
  [p.row - 1, p.row, p.row + 1].flatMap fun r =>
    [p.col - 1, p.col, p.col + 1].flatMap fun c =>
      if (0 ≤ r ∧ r < (b.height : Int) ∧ 0 ≤ c ∧ c < (b.width : Int)) ∧
          (r ≠ p.row ∨ c ≠ p.col) then [⟨r, c⟩] else []

/-- `countAdjacentMines(board, position)` from `src/utils/gameLogic.ts`:
the source iterates the same 3×3 window with the same bounds/self checks
as `getAdjacentPositions`, counting cells with `hasMine`. -/
def countAdjacentMines (b : Board) (p : Pos) : Int :=
  (((getAdjacentPositions b p).filter fun q => (getCell b q).hasMine).length : Int)

/-- Pointwise cell rewrite over the whole grid.  Models the source's
`for (row …) for (col …) newBoard.cells[row][col] = …` loops whose body
depends only on the cell being written (so the iteration order is
irrelevant). -/
def mapCells (b : Board) (f : Pos → Cell → Cell) : Board :=
  { b with cells := b.cells.mapIdx fun r rowCells =>
      rowCells.mapIdx fun c cell => f ⟨(r : Int), (c : Int)⟩ cell }

/-- `calculateAdjacentMines(board)` from `src/utils/gameLogic.ts` (the
private copy in `src/ai/minePlacer.ts` is the same computation).  The
source writes `adjacentMines` while reading only `hasMine`, so reading
neighbour mines from the input board is equivalent to the source's
read-from-`newBoard`. -/
def calculateAdjacentMines (b : Board) : Board :=
  mapCells b fun p cell =>
    if !cell.hasMine then { cell with adjacentMines := countAdjacentMines b p }
    else cell

/-- The candidate-position pool built by both `placeMines`
(`src/utils/gameLogic.ts`) and `createBoardWithMines`
(`src/ai/minePlacer.ts`): all positions, minus the Chebyshev-distance-1
neighbourhood of the safe zone when one is given. -/
def availablePositions (width height : Nat) (safeZone : Option Pos) : List Pos :=
  (List.range height).flatMap fun (row : Nat) =>
    (List.range width).flatMap fun (col : Nat) =>
      match safeZone with
      | some sz =>
        if ((row : Int) - sz.row).natAbs ≤ 1 ∧ ((col : Int) - sz.col).natAbs ≤ 1
        then [] else [⟨(row : Int), (col : Int)⟩]
      | none => [⟨(row : Int), (col : Int)⟩]

/-- `newBoard.cells[row][col].hasMine = true` as an immutable update. -/
def setMineAt (acc : Board) (q : Pos) : Board :=
  setCell acc q { getCell acc q with hasMine := true }

/-- `placeMines(board, mineCount, safeZone)` from
`src/utils/gameLogic.ts`.  The source shuffles the candidate pool with
`sort(() => Math.random() - 0.5)`; the shuffle's outcome is supplied as
the `shuffled` oracle argument (theorems hypothesise it is a permutation
of the pool) and the first `minesToPlace` entries receive mines. -/
def placeMines (board : Board) (mineCount : Int) (safeZone : Option Pos)
    (shuffled : List Pos) : Board :=
  let board1 := { board with mineCount := mineCount }
  let available := availablePositions board.width board.height safeZone
  let minesToPlace := min mineCount (available.length : Int)
  let mined := (shuffled.take minesToPlace.toNat).foldl setMineAt board1
  calculateAdjacentMines mined

/-- Marks one cell revealed and bumps `revealedCount`: the body of
`adjCell.state = 'revealed'; newBoard.revealedCount++` in the source's
flood fill (and of the seed reveal). -/
def revealOne (b : Board) (p : Pos) : Board :=
  let b' := setCell b p { getCell b p with state := .revealed }
  { b' with revealedCount := b'.revealedCount + 1 }

/-- The inner `for (const adjPos of adjacentPositions)` loop of the
source's flood fill: reveal every neighbour that is currently hidden and
mine-free, appending the zero-clue ones to the push list. -/
def revealAdjacent (adjacentPositions : List Pos) (board : Board)
    (pushes : List Pos) : Board × List Pos :=
  adjacentPositions.foldl
    (fun (acc : Board × List Pos) adjPos =>
      let adjCell := getCell acc.1 adjPos
      if adjCell.state = .hidden ∧ adjCell.hasMine = false then
        (revealOne acc.1 adjPos,
         if adjCell.adjacentMines = 0 then acc.2 ++ [adjPos] else acc.2)
      else acc)
    (board, pushes)

/-- The source's flood-fill `while (toReveal.length > 0)` loop: pop
`current`, skip it if visited, otherwise mark it visited and process its
neighbours with `revealAdjacent`.  The stack keeps its top at the head
(the source pushes/pops at the array end); the final revealed set is
order-independent, which the flood-fill theorem below makes precise.
`fuel` bounds the iteration count — the source loop terminates because
`visited` strictly grows, and `revealCell` passes enough fuel for the
loop to always run to completion. -/
def floodLoop : Nat → Board → List Pos → List Pos → Board
  | 0, board, _, _ => board
  | _ + 1, board, [], _ => board
  | fuel + 1, board, current :: rest, visited =>
    if current ∈ visited then floodLoop fuel board rest visited
    else
      let adjacentPositions := getAdjacentPositions board current
      let step := revealAdjacent adjacentPositions board []
      floodLoop fuel step.1 (step.2 ++ rest) (current :: visited)

/-- `revealCell(board, position)` from `src/utils/gameLogic.ts`. -/
def revealCell (board : Board) (position : Pos) : Board :=
  let row := position.row
  let col := position.col
  -- Validate position
  if row < 0 ∨ row ≥ (board.height : Int) ∨ col < 0 ∨ col ≥ (board.width : Int) then
    board
  else
    let cell := getCell board position
    -- Can't reveal already revealed or flagged cells
    if cell.state = .revealed ∨ cell.state = .flagged then board
    else
      let newBoard := { board with firstClick := false }
      if cell.hasMine then
        -- game over: explode the target, reveal every other mine
        let b1 := setCell newBoard position { cell with state := .exploded }
        let b2 := { b1 with gameStatus := .lost }
        mapCells b2 fun _ c =>
          if c.hasMine ∧ c.state ≠ .exploded then { c with state := .mine } else c
      else
        let b1 := revealOne newBoard position
        let b2 :=
          if cell.adjacentMines = 0 then
            floodLoop (10 * (board.width * board.height) + 1) b1 [position] []
          else b1
        -- Check for win condition
        let totalCells : Int := (board.width : Int) * (board.height : Int)
        if b2.revealedCount = totalCells - board.mineCount then
          { b2 with gameStatus := .won }
        else b2

/-- `toggleFlag(board, position)` from `src/utils/gameLogic.ts`. -/
def toggleFlag (board : Board) (position : Pos) : Board :=
  let row := position.row
  let col := position.col
  -- Validate position
  if row < 0 ∨ row ≥ (board.height : Int) ∨ col < 0 ∨ col ≥ (board.width : Int) then
    board
  else
    let cell := getCell board position
    -- Can't flag revealed cells
    if cell.state = .revealed ∨ cell.state = .mine ∨ cell.state = .exploded then
      board
    else if cell.state = .flagged then
      let b1 := setCell board position { cell with state := .hidden }
      { b1 with flaggedCount := b1.flaggedCount - 1 }
    else
      let b1 := setCell board position { cell with state := .flagged }
      { b1 with flaggedCount := b1.flaggedCount + 1 }

/-- `MoveType` from `src/types/index.ts`. -/
inductive MoveType where
  | safe
  | logical
  | probability
deriving DecidableEq, Repr

/-- `HintResult` from `src/types/index.ts`.  `confidence` is a
JavaScript number in [0,1]; modelled as `Rat`. -/
structure HintResult where
  suggestedMove : Pos
  moveType : MoveType
  confidence : Rat
  reasoning : String
deriving DecidableEq, Repr

/-- `getCellsByState(board, state)` from `src/utils/gameLogic.ts`. -/
def getCellsByState (b : Board) (s : CellState) : List Pos :=
  (List.range b.height).flatMap fun (row : Nat) =>
    (List.range b.width).flatMap fun (col : Nat) =>
      if (getCell b ⟨(row : Int), (col : Int)⟩).state = s
      then [⟨(row : Int), (col : Int)⟩] else []

/-- `removeDuplicatePositions` from `src/ai/hintEngine.ts`: keeps the
first occurrence of each position, preserving order. -/
def removeDuplicatePositions (positions : List Pos) : List Pos :=
  positions.foldl (fun seen pos => if pos ∈ seen then seen else seen ++ [pos]) []

/-- `MinesweeperHintEngine.findSafeMoves(board)` from
`src/ai/hintEngine.ts`. -/
def findSafeMoves (board : Board) : List Pos :=
  let safeMoves := (List.range board.height).flatMap fun (row : Nat) =>
    (List.range board.width).flatMap fun (col : Nat) =>
      let cell := getCell board ⟨(row : Int), (col : Int)⟩
      if cell.state = .revealed ∧ cell.adjacentMines > 0 then
        let adjacentPositions := getAdjacentPositions board ⟨(row : Int), (col : Int)⟩
        let adjacentCells := adjacentPositions.map (getCell board)
        let flaggedCount := (adjacentCells.filter fun c => c.state = .flagged).length
        let hiddenCells := adjacentPositions.filter fun pos =>
          (getCell board pos).state = .hidden
        -- If all mines around this cell are flagged, remaining hidden cells are safe
        if (flaggedCount : Int) = cell.adjacentMines ∧ hiddenCells.length > 0 then
          hiddenCells
        else []
      else []
  removeDuplicatePositions safeMoves

/-- `MinesweeperHintEngine.findLogicalMoves(board)` from
`src/ai/hintEngine.ts`.  The detection branch ends in `continue` without
ever collecting the detected positions, so the accumulator is returned
untouched in every branch — translated faithfully. -/
def findLogicalMoves (board : Board) : List Pos :=
  (List.range board.height).foldl (fun acc (row : Nat) =>
    (List.range board.width).foldl (fun logicalMoves (col : Nat) =>
      let cell := getCell board ⟨(row : Int), (col : Int)⟩
      if cell.state = .revealed ∧ cell.adjacentMines > 0 then
        let adjacentPositions := getAdjacentPositions board ⟨(row : Int), (col : Int)⟩
        let adjacentCells := adjacentPositions.map (getCell board)
        let flaggedCount := (adjacentCells.filter fun c => c.state = .flagged).length
        let hiddenPositions := adjacentPositions.filter fun pos =>
          (getCell board pos).state = .hidden
        -- If hidden + flagged equals adjacent mines, all hidden cells must be mines;
        -- the source `continue`s here instead of collecting them
        if ((flaggedCount : Int) + (hiddenPositions.length : Int)) = cell.adjacentMines ∧
            hiddenPositions.length > 0 then
          logicalMoves
        else logicalMoves
      else logicalMoves) acc) []

/-- `MinesweeperHintEngine.calculateSafeProbability` from
`src/ai/hintEngine.ts`.  JavaScript floating-point arithmetic is
modelled exactly over `Rat`. -/
def calculateSafeProbability (board : Board) (position : Pos) : Rat :=
  let adjacentPositions := getAdjacentPositions board position
  -- (totalConstraints, totalMinesNeeded)
  let totals := adjacentPositions.foldl
    (fun (acc : Nat × Rat) adjPos =>
      let adjCell := getCell board adjPos
      if adjCell.state = .revealed ∧ adjCell.adjacentMines > 0 then
        let adjAdjacent := getAdjacentPositions board adjPos
        let flaggedCount := (adjAdjacent.filter fun pos =>
          (getCell board pos).state = .flagged).length
        let hiddenCount := (adjAdjacent.filter fun pos =>
          (getCell board pos).state = .hidden).length
        if hiddenCount > 0 then
          (acc.1 + 1,
           acc.2 + Rat.divInt (adjCell.adjacentMines - (flaggedCount : Int)) (hiddenCount : Int))
        else acc
      else acc)
    (0, 0)
  if totals.1 = 0 then
    -- No constraints, use global mine density
    let totalCells : Int := (board.width : Int) * (board.height : Int)
    let remainingCells : Int := totalCells - board.revealedCount - board.flaggedCount
    let remainingMines : Int := board.mineCount - board.flaggedCount
    if remainingCells > 0 then 1 - Rat.divInt remainingMines remainingCells else 0
  else
    max 0 (min 1 (1 - totals.2 / (totals.1 : Rat)))

/-- `MinesweeperHintEngine.findProbabilityMoves(board)` from
`src/ai/hintEngine.ts`: every hidden position with its safety estimate,
sorted by descending probability. -/
def findProbabilityMoves (board : Board) : List (Pos × Rat) :=
  let probabilityMoves := (getCellsByState board .hidden).map fun position =>
    (position, calculateSafeProbability board position)
  probabilityMoves.mergeSort fun a b => decide (b.2 ≤ a.2)

/-- `MinesweeperHintEngine.calculateInformationGain` from
`src/ai/hintEngine.ts`. -/
def calculateInformationGain (board : Board) (position : Pos) : Int :=
  let cell := getCell board position
  if cell.adjacentMines = 0 then 10
  else
    ((getAdjacentPositions board position).filter fun pos =>
      (getCell board pos).state = .hidden).length

/-- `MinesweeperHintEngine.selectBestSafeMove` from
`src/ai/hintEngine.ts`.  The source indexes `safeMoves[0]`, so it is
only called with a non-empty list; the empty case returns a default. -/
def selectBestSafeMove (board : Board) (safeMoves : List Pos) : Pos :=
  if safeMoves.length = 1 then safeMoves.headD ⟨0, 0⟩
  else
    let best := safeMoves.foldl
      (fun (acc : Pos × Int) move =>
        let informationGain := calculateInformationGain board move
        if informationGain > acc.2 then (move, informationGain) else acc)
      (safeMoves.headD ⟨0, 0⟩, 0)
    best.1

/-- `MinesweeperHintEngine.selectBestLogicalMove` from
`src/ai/hintEngine.ts`: just the first logical move. -/
def selectBestLogicalMove (_board : Board) (logicalMoves : List Pos) : Pos :=
  logicalMoves.headD ⟨0, 0⟩

/-- `MinesweeperHintEngine.explainSafeMove` from `src/ai/hintEngine.ts`. -/
def explainSafeMove (board : Board) (position : Pos) : String :=
  let adjacentPositions := getAdjacentPositions board position
  let justifying := adjacentPositions.find? fun adjPos =>
    let adjCell := getCell board adjPos
    decide (adjCell.state = .revealed ∧ adjCell.adjacentMines > 0 ∧
      ((((getAdjacentPositions board adjPos).filter fun pos =>
        (getCell board pos).state = .flagged).length : Int) = adjCell.adjacentMines))
  match justifying with
  | some adjPos =>
    let adjCell := getCell board adjPos
    "This cell is safe because the " ++ toString adjCell.adjacentMines ++
      " at (" ++ toString (adjPos.row + 1) ++ ", " ++ toString (adjPos.col + 1) ++
      ") already has all its mines flagged."
  | none => "This cell is safe based on logical deduction from surrounding numbers."

/-- `MinesweeperHintEngine.explainLogicalMove` from
`src/ai/hintEngine.ts`. -/
def explainLogicalMove (_board : Board) (_position : Pos) : String :=
  "This cell can be determined through logical deduction from the surrounding numbered cells."

/-- `Math.round`, as used for the probability percentage text. -/
def jsRound (q : Rat) : Int := ⌊q + mkRat 1 2⌋

/-- `MinesweeperHintEngine.analyzeBoard(board)` from
`src/ai/hintEngine.ts`. -/
def analyzeBoard (board : Board) : Option HintResult :=
  if board.gameStatus ≠ .playing ∨ board.firstClick then none
  else
    -- First, try to find guaranteed safe moves
    let safeMoves := findSafeMoves board
    if safeMoves.length > 0 then
      let bestMove := selectBestSafeMove board safeMoves
      some { suggestedMove := bestMove, moveType := .safe, confidence := 1,
             reasoning := explainSafeMove board bestMove }
    else
      -- If no safe moves, try logical deduction
      let logicalMoves := findLogicalMoves board
      if logicalMoves.length > 0 then
        let bestMove := selectBestLogicalMove board logicalMoves
        some { suggestedMove := bestMove, moveType := .logical, confidence := mkRat 9 10,
               reasoning := explainLogicalMove board bestMove }
      else
        -- If no logical moves, use probability analysis
        let probabilityMoves := findProbabilityMoves board
        match probabilityMoves with
        | bestMove :: _ =>
          some { suggestedMove := bestMove.1, moveType := .probability,
                 confidence := bestMove.2,
                 reasoning := "This cell has a " ++ toString (jsRound (bestMove.2 * 100)) ++
                   "% chance of being safe based on probability analysis." }
        | [] => none

/-- `IntelligentMinePlacer.selectMinePosition` from `src/ai/minePlacer.ts`.
The source picks `availablePositions[Math.floor(Math.random()*len)]` for
the first mine, and otherwise one of the up-to-5 top-scoring candidates
(Euclidean-distance spread minus an edge penalty plus random jitter —
floating-point heuristics that only influence *which* member of
`availablePositions` is chosen).  The choice is modelled by the `pick`
oracle index; in every source branch the result is a member of
`availablePositions`, and `null` is returned exactly when the pool is
empty. -/
def selectMinePosition (available _placedMines : List Pos) (pick : Nat) : Option Pos :=
  match available with
  | [] => none
  | _ => available[pick % available.length]?

/-- One iteration of `createBoardWithMines`'s placement loop: select a
position (if any), set its mine, remove it from the pool, append it to
`placedMines`.  State: (board, availablePositions, placedMines). -/
def mineStep (picks : Nat → Nat) (acc : Board × List Pos × List Pos) (i : Nat) :
    Board × List Pos × List Pos :=
  match selectMinePosition acc.2.1 acc.2.2 (picks i) with
  | some position =>
    (setCell acc.1 position { getCell acc.1 position with hasMine := true },
     acc.2.1.erase position, acc.2.2 ++ [position])
  | none => acc

/-- `IntelligentMinePlacer.createBoardWithMines` from
`src/ai/minePlacer.ts`: place `min(mineCount, pool size)` mines one at a
time, each chosen from the shrinking candidate pool, then compute clue
counts.  `picks` is the per-step random-choice oracle. -/
def createBoardWithMines (width height : Nat) (mineCount : Int) (safeZone : Option Pos)
    (picks : Nat → Nat) : Board :=
  let board := createEmptyBoard width height
  let available := availablePositions width height safeZone
  let minesToPlace := min mineCount (available.length : Int)
  let final := (List.range minesToPlace.toNat).foldl (mineStep picks) (board, available, [])
  let board2 := { final.1 with mineCount := (final.2.2.length : Int) }
  calculateAdjacentMines board2

/-- The solvability simulation's acceptance threshold: more than 70% of
the non-mine cells revealed by pure safe-move iteration.  `Rat` division
by zero yields 0 (JavaScript would give Infinity/NaN); this corner only
arises when every cell is a mine. -/
def solvePercentage (tb : Board) : Bool :=
  Rat.divInt tb.revealedCount ((tb.width : Int) * (tb.height : Int) - tb.mineCount) >
    mkRat 7 10

/-- The `while (progress && iterations < maxIterations)` loop of
`IntelligentMinePlacer.validateSolvability`, with the remaining
iteration budget explicit (the source caps it at 100). -/
def solvIterate : Nat → Board → Bool
  | 0, testBoard => solvePercentage testBoard
  | n + 1, testBoard =>
    let safeMoves := findSafeMoves testBoard
    -- reveal every safe move that is still hidden, tracking progress
    let step := safeMoves.foldl
      (fun (acc : Board × Bool) move =>
        if (getCell acc.1 move).state = .hidden then (revealOne acc.1 move, true)
        else acc)
      (testBoard, false)
    let totalCells : Int := (step.1.width : Int) * (step.1.height : Int)
    if step.1.revealedCount ≥ totalCells - step.1.mineCount then true
    else if step.2 then solvIterate n step.1
    else solvePercentage step.1

/-- `IntelligentMinePlacer.validateSolvability` from
`src/ai/minePlacer.ts` (the simulation runs on a private copy, which in
a pure model is the board itself). -/
def validateSolvability (board : Board) : Bool :=
  solvIterate 100 board

/-- `IntelligentMinePlacer.optimizeMineDistribution`: currently a no-op
hook. -/
def optimizeMineDistribution (board : Board) : Board :=
  board

/-- The bounded retry loop of `IntelligentMinePlacer.generateBoard`,
with the remaining attempt budget explicit: each attempt builds an
anti-clustered board and keeps it when the solvability check passes;
exhausting the budget falls back to `placeMines`. -/
def generateBoardAux (width height : Nat) (mineCount : Int) (safeZone : Option Pos)
    (picksFor : Nat → Nat → Nat) (shuffled : List Pos) : Nat → Board
  | 0 => placeMines (createEmptyBoard width height) mineCount safeZone shuffled
  | n + 1 =>
    let board := createBoardWithMines width height mineCount safeZone (picksFor n)
    if validateSolvability board then optimizeMineDistribution board
    else generateBoardAux width height mineCount safeZone picksFor shuffled n

/-- `IntelligentMinePlacer.generateBoard(width, height, mineCount,
safeZone)` from `src/ai/minePlacer.ts` (`maxAttempts = 50`).  `picksFor`
supplies each attempt's random-choice oracle and `shuffled` the fallback
shuffle outcome. -/
def generateBoard (width height : Nat) (mineCount : Int) (safeZone : Option Pos)
    (picksFor : Nat → Nat → Nat) (shuffled : List Pos) : Board :=
  generateBoardAux width height mineCount safeZone picksFor shuffled 50

/-- `DifficultyLevel` from `src/types/index.ts`. -/
inductive Difficulty where
  | beginner
  | intermediate
  | expert
deriving DecidableEq, Repr

/-- One entry of `AdaptiveDifficultySystem.difficultySettings`. -/
structure DifficultySetting where
  baseWidth : Int
  baseHeight : Int
  baseMines : Int
  maxMines : Int
deriving DecidableEq, Repr

/-- `AdaptiveDifficultySystem.difficultySettings` from
`src/ai/difficultyAdapter.ts`. -/
def difficultySettings : Difficulty → DifficultySetting
  | .beginner => { baseWidth := 9, baseHeight := 9, baseMines := 10, maxMines := 15 }
  | .intermediate => { baseWidth := 16, baseHeight := 16, baseMines := 40, maxMines := 60 }
  | .expert => { baseWidth := 30, baseHeight := 16, baseMines := 99, maxMines := 150 }

/-- `PlayerStats` from `src/types/index.ts`. -/
structure PlayerStats where
  gamesPlayed : Nat
  gamesWon : Nat
  averageTime : Rat
  hintsUsed : Nat
  currentStreak : Int
  preferredDifficulty : Difficulty
deriving DecidableEq, Repr

/-- Performance trend labels used by `analyzeRecentPerformance`. -/
inductive Trend where
  | improving
  | declining
  | stable
deriving DecidableEq, Repr

/-- `AdaptiveDifficultySystem.analyzeRecentPerformance` from
`src/ai/difficultyAdapter.ts`: (trend, confidence). -/
def analyzeRecentPerformance (playerStats : PlayerStats) : Trend × Rat :=
  if playerStats.currentStreak > 2 then (.improving, mkRat 4 5)
  else if playerStats.currentStreak < -2 then (.declining, mkRat 4 5)
  else (.stable, mkRat 3 5)

/-- `AdaptiveDifficultySystem.calculateMineCount(playerStats)` from
`src/ai/difficultyAdapter.ts`.  The source's floating-point ratio
comparisons and `Math.floor(baseMines * 0.7)` agree with exact `Rat`
arithmetic at all three tiers (the floored products 7, 28, 69 are exact
in IEEE double as well), so the adjustments are modelled over `Rat`;
integer ratios are written `Rat.divInt` / `mkRat` (definitionally equal
to `Rat` division by `Rat.divInt_eq_div` / `Rat.mkRat_eq_div`). -/
def calculateMineCount (playerStats : PlayerStats) : Int :=
  let settings := difficultySettings playerStats.preferredDifficulty
  if playerStats.gamesPlayed < 3 then
    -- New players get base difficulty
    settings.baseMines
  else
    let winRate : Rat := Rat.divInt (playerStats.gamesWon : Int) (playerStats.gamesPlayed : Int)
    let recentPerformance := analyzeRecentPerformance playerStats
    -- Win rate adjustments
    let wrAdj : Int :=
      if winRate > mkRat 4 5 then 3
      else if winRate > mkRat 3 5 then 1
      else if winRate < mkRat 3 10 then -3
      else if winRate < mkRat 1 2 then -1
      else 0
    -- Recent performance adjustments
    let trendAdj : Int :=
      if recentPerformance.1 = .improving ∧ recentPerformance.2 > mkRat 7 10 then 1
      else if recentPerformance.1 = .declining ∧ recentPerformance.2 > mkRat 7 10 then -1
      else 0
    -- Recent streak adjustments
    let streakAdj : Int :=
      if playerStats.currentStreak ≥ 5 then 2
      else if playerStats.currentStreak ≤ -3 then -2
      else 0
    -- Hint usage adjustments
    let avgHintsPerGame : Rat :=
      Rat.divInt (playerStats.hintsUsed : Int) (playerStats.gamesPlayed : Int)
    let hintAdj : Int := if avgHintsPerGame > 3 then -1 else 0
    let adjustment := wrAdj + trendAdj + streakAdj + hintAdj
    -- Apply adjustment with bounds
    max ⌊(settings.baseMines : Rat) * mkRat 7 10⌋
      (min settings.maxMines (settings.baseMines + adjustment))

/-! ## Specification-side predicates -/

/-- The clue values stored on the board match the true mine layout:
every in-bounds non-mine cell's `adjacentMines` equals the actual count
of neighbouring mines.  Established by `calculateAdjacentMines` during
generation and preserved by play. -/
def ClueCorrect (b : Board) : Prop :=
  ∀ p, inBounds b p → (getCell b p).hasMine = false →
    (getCell b p).adjacentMines = countAdjacentMines b p

/-- Every flagged cell really holds a mine (the player's flags are
correct). -/
def FlagsCorrect (b : Board) : Prop :=
  ∀ p, inBounds b p → (getCell b p).state = .flagged → (getCell b p).hasMine = true

/-- No revealed cell holds a mine. -/
def RevealedSafe (b : Board) : Prop :=
  ∀ p, inBounds b p → (getCell b p).state = .revealed → (getCell b p).hasMine = false

/-- The structural invariant maintained by every board the engine
produces. -/
def Invariant (b : Board) : Prop :=
  WellFormed b ∧ ClueCorrect b ∧ RevealedSafe b

/-- Boards reachable through the public operations: a `generateBoard`
result (for some outcome of the random choices), followed by any
sequence of `revealCell` / `toggleFlag` calls. -/
inductive Reachable : Board → Prop where
  | generated (width height : Nat) (mineCount : Int) (safeZone : Option Pos)
      (picksFor : Nat → Nat → Nat) (shuffled : List Pos)
      (hperm : shuffled.Perm (availablePositions width height safeZone)) :
      Reachable (generateBoard width height mineCount safeZone picksFor shuffled)
  | reveal (b : Board) (p : Pos) : Reachable b → Reachable (revealCell b p)
  | flag (b : Board) (p : Pos) : Reachable b → Reachable (toggleFlag b p)

/-- The flood-fill reachability relation on the pre-reveal board `b`:
positions connected to the clicked cell `start` through chains of
hidden, zero-clue, non-mine cells (Chebyshev adjacency).  The cells the
flood fill reveals are exactly these positions' hidden non-mine
neighbours, plus `start` itself. -/
inductive ZeroReach (b : Board) (start : Pos) : Pos → Prop where
  | seed : ZeroReach b start start
  | step (x q : Pos) : ZeroReach b start x → q ∈ getAdjacentPositions b x →
      (getCell b q).state = .hidden → (getCell b q).hasMine = false →
      (getCell b q).adjacentMines = 0 → ZeroReach b start q

/-- A hidden, mine-free cell — the only kind the flood fill reveals. -/
def Hid (b : Board) (q : Pos) : Prop :=
  (getCell b q).state = .hidden ∧ (getCell b q).hasMine = false

/-- A hidden, mine-free, zero-clue cell — the kind the flood fill
expands through. -/
def ZeroCell (b : Board) (q : Pos) : Prop :=
  Hid b q ∧ (getCell b q).adjacentMines = 0

/-- The set of cells `revealCell` ends up revealing when clicking the
zero-clue cell `start`: the click target plus every hidden non-mine
neighbour of a zero-reachable cell. -/
def floodTarget (b : Board) (start : Pos) : Set Pos :=
  { q | q = start ∨ (Hid b q ∧ ∃ x, ZeroReach b start x ∧ q ∈ getAdjacentPositions b x) }

/-- The cells revealed after the flood fill has expanded exactly the
positions in `v`: the seed plus the hidden non-mine neighbours of `v`'s
members.  The flood-fill loop invariant. -/
def ExploredSet (b : Board) (start : Pos) (v : List Pos) : Set Pos :=
  { q | q = start ∨ (Hid b q ∧ ∃ x ∈ v, q ∈ getAdjacentPositions b x) }

/-- Two boards sharing every top-level field except `cells`,
`revealedCount` and `firstClick`: what the flood-fill loop preserves on
any board whatsoever. -/
def SameFrame (b b' : Board) : Prop :=
  b'.width = b.width ∧ b'.height = b.height ∧ b'.mineCount = b.mineCount ∧
  b'.flaggedCount = b.flaggedCount ∧ b'.gameStatus = b.gameStatus

/-- `cur` is `base` with precisely the cells of `E` switched to
`revealed` (all other cell data and the listed board fields intact).
`revealedCount` and `firstClick` are deliberately unconstrained. -/
def Ext (base cur : Board) (E : Set Pos) : Prop :=
  WellFormed cur ∧ SameFrame base cur ∧
  (∀ q, inBounds base q → q ∈ E →
    getCell cur q = { getCell base q with state := .revealed }) ∧
  (∀ q, inBounds base q → q ∉ E → getCell cur q = getCell base q) ∧
  (∀ q ∈ E, inBounds base q)

/-! ## Concrete boards used by the counterexamples -/

/-- A cell literal shorthand. -/
def mkCell (s : CellState) (m : Bool) (n : Int) (r c : Int) : Cell :=
  { state := s, hasMine := m, adjacentMines := n, position := ⟨r, c⟩ }

/-- A lost 1×2 board: the mine at (0,1) has been revealed (exploded)
while the non-mine cell (0,0) is still hidden.  Reachable by revealing
the mine first on a fresh board. -/
def lostBoard : Board :=
  { cells := [[mkCell .hidden false 1 0 0, mkCell .exploded true 0 0 1]]
    width := 2, height := 1, mineCount := 1, revealedCount := 0,
    flaggedCount := 0, gameStatus := .lost, firstClick := false }

/-- A playing 1×1 board whose only cell is already revealed. -/
def tinyRevealedBoard : Board :=
  { cells := [[mkCell .revealed false 0 0 0]]
    width := 1, height := 1, mineCount := 0, revealedCount := 1,
    flaggedCount := 0, gameStatus := .playing, firstClick := false }

/-- A playing 1×1 board whose only cell is a flagged mine. -/
def flaggedMineBoard : Board :=
  { cells := [[mkCell .flagged true 0 0 0]]
    width := 1, height := 1, mineCount := 1, revealedCount := 0,
    flaggedCount := 1, gameStatus := .playing, firstClick := false }

/-- A playing 1×5 board, mine at (0,4), in which the player has flagged
the zero-clue cell (0,1): built by `placeMines` then `toggleFlag`, so
its clue values are the true counts. -/
def flagBlockedBoard : Board :=
  toggleFlag
    (placeMines (createEmptyBoard 5 1) 1 none [⟨0,4⟩, ⟨0,0⟩, ⟨0,1⟩, ⟨0,2⟩, ⟨0,3⟩])
    ⟨0, 1⟩

/-- A reachable 2×2 board with the mine at (1,1): generated through the
fallback path (tiny boards always fail the solvability check), then
(0,0) revealed and the non-mine cell (0,1) wrongly flagged. -/
def wrongFlagBoard : Board :=
  toggleFlag
    (revealCell
      (generateBoard 2 2 1 none (fun _ _ => 0) [⟨1,1⟩, ⟨0,0⟩, ⟨0,1⟩, ⟨1,0⟩])
      ⟨0, 0⟩)
    ⟨0, 1⟩

/-- Same reachable 2×2 board but with the correct cell (1,1) flagged. -/
def rightFlagBoard : Board :=
  toggleFlag
    (revealCell
      (generateBoard 2 2 1 none (fun _ _ => 0) [⟨1,1⟩, ⟨0,0⟩, ⟨0,1⟩, ⟨1,0⟩])
      ⟨0, 0⟩)
    ⟨1, 1⟩

/-- An unflagged 1×3 board with its mine at (0,2), clues computed by
`placeMines`; used to witness the flood-fill characterisation. -/
def openRowBoard : Board :=
  placeMines (createEmptyBoard 3 1) 1 none [⟨0,2⟩, ⟨0,0⟩, ⟨0,1⟩]

/-- A 1×4 board with mines at (0,2) and (0,3), clues computed by
`placeMines`; used to witness loss detection revealing all mines. -/
def twoMineBoard : Board :=
  placeMines (createEmptyBoard 4 1) 2 none [⟨0,2⟩, ⟨0,3⟩, ⟨0,0⟩, ⟨0,1⟩]

/-- Stats of a player with fewer than 3 recorded games. -/
def newPlayerStats : PlayerStats :=
  { gamesPlayed := 2, gamesWon := 1, averageTime := 0, hintsUsed := 0,
    currentStreak := 1, preferredDifficulty := .beginner }

/-- Stats of a strong veteran beginner-tier player. -/
def veteranStats : PlayerStats :=
  { gamesPlayed := 10, gamesWon := 9, averageTime := 0, hintsUsed := 0,
    currentStreak := 7, preferredDifficulty := .beginner }

end Minesweeper

/-! # Theorems -/

namespace Minesweeper

attribute [local semireducible] Rat.add Rat.mul Rat.sub

/-! ## List helpers -/

theorem list_set_self {α : Type _} (l : List α) (i : Nat) (h : i < l.length) :
    l.set i l[i] = l := by
  apply List.ext_getElem?
  intro n
  rw [List.getElem?_set]
  split
  · next heq => subst heq; simp [List.getElem?_eq_getElem h]
  · rfl

theorem mem_of_mem_set {α : Type _} {l : List α} {i : Nat} {a x : α}
    (hx : x ∈ l.set i a) : x ∈ l ∨ x = a := by
  induction l generalizing i with
  | nil => simp at hx
  | cons y ys ih =>
    cases i with
    | zero =>
      rw [List.set_cons_zero] at hx
      rcases List.mem_cons.mp hx with rfl | hmem
      · exact Or.inr rfl
      · exact Or.inl (List.mem_cons_of_mem _ hmem)
    | succ n =>
      rw [List.set_cons_succ] at hx
      rcases List.mem_cons.mp hx with rfl | hmem
      · exact Or.inl (List.mem_cons_self _ _)
      · rcases ih hmem with h | h
        · exact Or.inl (List.mem_cons_of_mem _ h)
        · exact Or.inr h

theorem foldl_fixed {α β : Type _} (f : α → β → α) (l : List β)
    (h : ∀ acc x, f acc x = acc) : ∀ init, l.foldl f init = init := by
  induction l with
  | nil => intro init; rfl
  | cons y ys ih => intro init; rw [List.foldl_cons, h, ih]

theorem countP_lt_countP {α : Type _} (p q : α → Bool) {l : List α}
    (himp : ∀ x ∈ l, p x = true → q x = true) {x : α} (hx : x ∈ l)
    (hqx : q x = true) (hpx : p x = false) : l.countP p < l.countP q := by
  induction l with
  | nil => simp at hx
  | cons a as ih =>
    rcases List.mem_cons.mp hx with rfl | hmem
    · have hc : as.countP p ≤ as.countP q :=
        List.countP_mono_left fun y hy => himp y (List.mem_cons_of_mem _ hy)
      simp only [List.countP_cons, hpx, hqx, if_pos, Bool.false_eq_true, if_false]
      omega
    · have hlt := ih (fun y hy => himp y (List.mem_cons_of_mem _ hy)) hmem
      have hpa : (if p a = true then 1 else 0) ≤ (if q a = true then 1 else 0) := by
        by_cases h : p a = true
        · rw [if_pos h, if_pos (himp a (List.mem_cons_self _ _) h)]
        · rw [if_neg h]; exact Nat.zero_le _
      simp only [List.countP_cons]
      omega

/-! ## Board access basics -/

theorem Pos.ext_iff (p q : Pos) : p = q ↔ p.row = q.row ∧ p.col = q.col := by
  cases p; cases q; simp

@[simp] theorem setCell_width (b : Board) (p : Pos) (c : Cell) :
    (setCell b p c).width = b.width := rfl

@[simp] theorem setCell_height (b : Board) (p : Pos) (c : Cell) :
    (setCell b p c).height = b.height := rfl

@[simp] theorem setCell_mineCount (b : Board) (p : Pos) (c : Cell) :
    (setCell b p c).mineCount = b.mineCount := rfl

@[simp] theorem setCell_revealedCount (b : Board) (p : Pos) (c : Cell) :
    (setCell b p c).revealedCount = b.revealedCount := rfl

@[simp] theorem setCell_flaggedCount (b : Board) (p : Pos) (c : Cell) :
    (setCell b p c).flaggedCount = b.flaggedCount := rfl

@[simp] theorem setCell_gameStatus (b : Board) (p : Pos) (c : Cell) :
    (setCell b p c).gameStatus = b.gameStatus := rfl

@[simp] theorem setCell_firstClick (b : Board) (p : Pos) (c : Cell) :
    (setCell b p c).firstClick = b.firstClick := rfl

@[simp] theorem revealOne_width (b : Board) (p : Pos) :
    (revealOne b p).width = b.width := rfl

@[simp] theorem revealOne_height (b : Board) (p : Pos) :
    (revealOne b p).height = b.height := rfl

@[simp] theorem revealOne_mineCount (b : Board) (p : Pos) :
    (revealOne b p).mineCount = b.mineCount := rfl

@[simp] theorem revealOne_flaggedCount (b : Board) (p : Pos) :
    (revealOne b p).flaggedCount = b.flaggedCount := rfl

@[simp] theorem revealOne_gameStatus (b : Board) (p : Pos) :
    (revealOne b p).gameStatus = b.gameStatus := rfl

@[simp] theorem revealOne_firstClick (b : Board) (p : Pos) :
    (revealOne b p).firstClick = b.firstClick := rfl

@[simp] theorem revealOne_revealedCount (b : Board) (p : Pos) :
    (revealOne b p).revealedCount = b.revealedCount + 1 := rfl

@[simp] theorem mapCells_width (b : Board) (f : Pos → Cell → Cell) :
    (mapCells b f).width = b.width := rfl

@[simp] theorem mapCells_height (b : Board) (f : Pos → Cell → Cell) :
    (mapCells b f).height = b.height := rfl

@[simp] theorem mapCells_mineCount (b : Board) (f : Pos → Cell → Cell) :
    (mapCells b f).mineCount = b.mineCount := rfl

@[simp] theorem mapCells_revealedCount (b : Board) (f : Pos → Cell → Cell) :
    (mapCells b f).revealedCount = b.revealedCount := rfl

@[simp] theorem mapCells_flaggedCount (b : Board) (f : Pos → Cell → Cell) :
    (mapCells b f).flaggedCount = b.flaggedCount := rfl

@[simp] theorem mapCells_gameStatus (b : Board) (f : Pos → Cell → Cell) :
    (mapCells b f).gameStatus = b.gameStatus := rfl

@[simp] theorem mapCells_firstClick (b : Board) (f : Pos → Cell → Cell) :
    (mapCells b f).firstClick = b.firstClick := rfl

theorem inBounds_congr {b b' : Board} (hw : b'.width = b.width)
    (hh : b'.height = b.height) (p : Pos) : inBounds b' p ↔ inBounds b p := by
  unfold inBounds; rw [hw, hh]

theorem getCell_setCell {b : Board} (p q : Pos) (c : Cell)
    (hw : WellFormed b) (hp : inBounds b p) (hq : inBounds b q) :
    getCell (setCell b p c) q = if q = p then c else getCell b q := by
  obtain ⟨hlen, hrows⟩ := hw
  obtain ⟨hp1, hp2, hp3, hp4⟩ := hp
  obtain ⟨hq1, hq2, hq3, hq4⟩ := hq
  have hrp : p.row.toNat < b.cells.length := by omega
  have hrq : q.row.toNat < b.cells.length := by omega
  unfold getCell setCell
  simp only [List.getD_eq_getElem?_getD]
  by_cases hrow : q.row.toNat = p.row.toNat
  · rw [hrow, List.getElem?_set_self hrp, Option.getD_some,
      List.getElem?_eq_getElem hrp, Option.getD_some]
    have hwidth : b.cells[p.row.toNat].length = b.width :=
      hrows _ (b.cells.getElem_mem hrp)
    have hcp : p.col.toNat < b.cells[p.row.toNat].length := by omega
    by_cases hcol : q.col.toNat = p.col.toNat
    · have hqp : q = p := by rw [Pos.ext_iff]; omega
      rw [if_pos hqp, hcol, List.getElem?_set_self hcp, Option.getD_some]
    · have hqp : ¬q = p := by rw [Pos.ext_iff]; omega
      rw [if_neg hqp, List.getElem?_set_ne (Ne.symm hcol)]
  · have hqp : ¬q = p := by rw [Pos.ext_iff]; omega
    rw [if_neg hqp, List.getElem?_set_ne (Ne.symm hrow)]

theorem wellFormed_setCell {b : Board} (p : Pos) (c : Cell)
    (hw : WellFormed b) (hp : inBounds b p) : WellFormed (setCell b p c) := by
  obtain ⟨hlen, hrows⟩ := hw
  obtain ⟨hp1, hp2, hp3, hp4⟩ := hp
  have hrp : p.row.toNat < b.cells.length := by omega
  constructor
  · simp [setCell, hlen]
  · intro r hr
    rcases mem_of_mem_set hr with h | h
    · exact hrows r h
    · subst h
      rw [List.length_set, List.getD_eq_getElem?_getD, List.getElem?_eq_getElem hrp,
        Option.getD_some]
      exact hrows _ (b.cells.getElem_mem hrp)

theorem getCell_revealOne {b : Board} (p q : Pos)
    (hw : WellFormed b) (hp : inBounds b p) (hq : inBounds b q) :
    getCell (revealOne b p) q =
      if q = p then { getCell b p with state := .revealed } else getCell b q := by
  unfold revealOne
  exact getCell_setCell p q _ hw hp hq

theorem wellFormed_revealOne {b : Board} (p : Pos)
    (hw : WellFormed b) (hp : inBounds b p) : WellFormed (revealOne b p) := by
  unfold revealOne
  constructor
  · exact (wellFormed_setCell p _ hw hp).1
  · exact (wellFormed_setCell p _ hw hp).2

theorem getCell_mapCells {b : Board} (f : Pos → Cell → Cell) (q : Pos)
    (hw : WellFormed b) (hq : inBounds b q) :
    getCell (mapCells b f) q = f q (getCell b q) := by
  obtain ⟨hlen, hrows⟩ := hw
  obtain ⟨hq1, hq2, hq3, hq4⟩ := hq
  have hrq : q.row.toNat < b.cells.length := by omega
  have hwidth : b.cells[q.row.toNat].length = b.width :=
    hrows _ (b.cells.getElem_mem hrq)
  have hcq : q.col.toNat < b.cells[q.row.toNat].length := by omega
  have hpos : (⟨(q.row.toNat : Int), (q.col.toNat : Int)⟩ : Pos) = q := by
    rw [Pos.ext_iff]; constructor <;> simp <;> omega
  unfold getCell mapCells
  simp only [List.getD_eq_getElem?_getD, List.getElem?_mapIdx,
    List.getElem?_eq_getElem hrq, List.getElem?_eq_getElem hcq,
    Option.map_some', Option.getD_some, hpos]

theorem wellFormed_mapCells {b : Board} (f : Pos → Cell → Cell)
    (hw : WellFormed b) : WellFormed (mapCells b f) := by
  obtain ⟨hlen, hrows⟩ := hw
  constructor
  · simp [mapCells, hlen]
  · intro r hr
    simp only [mapCells] at hr
    rw [List.mem_iff_getElem] at hr
    obtain ⟨i, hi, hr⟩ := hr
    rw [List.length_mapIdx] at hi
    have : (b.cells.mapIdx fun r rowCells =>
        rowCells.mapIdx fun c cell => f ⟨(r : Int), (c : Int)⟩ cell)[i] =
        b.cells[i].mapIdx fun c cell => f ⟨(i : Int), (c : Int)⟩ cell := by
      rw [← Option.some_inj, ← List.getElem?_eq_getElem, List.getElem?_mapIdx,
        List.getElem?_eq_getElem hi, Option.map_some']
    rw [this] at hr
    rw [← hr, List.length_mapIdx]
    exact hrows _ (b.cells.getElem_mem hi)

theorem wellFormed_createEmptyBoard (w h : Nat) :
    WellFormed (createEmptyBoard w h) := by
  constructor
  · show ((List.range h).map _).length = h
    rw [List.length_map, List.length_range]
  · intro r hr
    simp only [createEmptyBoard, List.mem_map] at hr
    obtain ⟨i, _, rfl⟩ := hr
    show ((List.range w).map _).length = w
    rw [List.length_map, List.length_range]

theorem getCell_createEmptyBoard (w h : Nat) (q : Pos)
    (hq : inBounds (createEmptyBoard w h) q) :
    getCell (createEmptyBoard w h) q =
      { state := .hidden, hasMine := false, adjacentMines := 0, position := q } := by
  obtain ⟨hq1, hq2, hq3, hq4⟩ := hq
  simp only [createEmptyBoard] at hq2 hq4
  have hrq : q.row.toNat < h := by omega
  have hcq : q.col.toNat < w := by omega
  have hpos : (⟨(q.row.toNat : Int), (q.col.toNat : Int)⟩ : Pos) = q := by
    rw [Pos.ext_iff]; constructor <;> simp <;> omega
  unfold getCell createEmptyBoard
  simp only [List.getD_eq_getElem?_getD, List.getElem?_map,
    List.getElem?_range hrq, List.getElem?_range hcq, Option.map_some',
    Option.getD_some, hpos]

/-! ## Adjacency lemmas -/

theorem mem_getAdjacentPositions {b : Board} {p q : Pos} :
    q ∈ getAdjacentPositions b p ↔
      inBounds b q ∧ q ≠ p ∧
        (q.row - p.row).natAbs ≤ 1 ∧ (q.col - p.col).natAbs ≤ 1 := by
  obtain ⟨pr, pc⟩ := p
  obtain ⟨qr, qc⟩ := q
  unfold getAdjacentPositions
  simp only [List.mem_flatMap, List.mem_cons, List.not_mem_nil, or_false]
  constructor
  · rintro ⟨r, hr, c, hc, hq⟩
    split at hq
    · next hcond =>
      obtain ⟨⟨hb1, hb2, hb3, hb4⟩, hne⟩ := hcond
      have hqe := List.mem_singleton.mp hq
      rw [Pos.mk.injEq] at hqe
      obtain ⟨rfl, rfl⟩ := hqe
      refine ⟨⟨hb1, hb2, hb3, hb4⟩, ?_, by omega, by omega⟩
      simp only [ne_eq, Pos.mk.injEq, not_and]
      intro h1 h2
      rcases hne with h | h
      · exact h h1
      · exact h h2
    · simp at hq
  · rintro ⟨⟨hb1, hb2, hb3, hb4⟩, hne, habs1, habs2⟩
    simp only [ne_eq, Pos.mk.injEq, not_and] at hne
    refine ⟨qr, by omega, qc, by omega, ?_⟩
    rw [if_pos]
    · exact List.mem_singleton.mpr rfl
    · refine ⟨⟨hb1, hb2, hb3, hb4⟩, ?_⟩
      by_cases h : qr = pr
      · exact Or.inr (hne h)
      · exact Or.inl h

theorem inBounds_of_mem_adjacent {b : Board} {p q : Pos}
    (h : q ∈ getAdjacentPositions b p) : inBounds b q :=
  (mem_getAdjacentPositions.mp h).1

theorem getAdjacentPositions_congr {b b' : Board} (hw : b'.width = b.width)
    (hh : b'.height = b.height) (p : Pos) :
    getAdjacentPositions b' p = getAdjacentPositions b p := by
  unfold getAdjacentPositions
  rw [hw, hh]

/-! ## Flood-fill frame preservation -/

theorem sameFrame_refl (b : Board) : SameFrame b b :=
  ⟨rfl, rfl, rfl, rfl, rfl⟩

theorem sameFrame_trans {a b c : Board} (h1 : SameFrame a b) (h2 : SameFrame b c) :
    SameFrame a c := by
  obtain ⟨e1, e2, e3, e4, e5⟩ := h1
  obtain ⟨f1, f2, f3, f4, f5⟩ := h2
  exact ⟨f1.trans e1, f2.trans e2, f3.trans e3, f4.trans e4, f5.trans e5⟩

theorem revealAdjacent_nil (b : Board) (ps : List Pos) :
    revealAdjacent [] b ps = (b, ps) := rfl

theorem revealAdjacent_cons (a : Pos) (l : List Pos) (b : Board) (ps : List Pos) :
    revealAdjacent (a :: l) b ps =
      if (getCell b a).state = .hidden ∧ (getCell b a).hasMine = false then
        revealAdjacent l (revealOne b a)
          (if (getCell b a).adjacentMines = 0 then ps ++ [a] else ps)
      else revealAdjacent l b ps := by
  by_cases h : (getCell b a).state = .hidden ∧ (getCell b a).hasMine = false
  · rw [if_pos h]
    show List.foldl _ _ _ = _
    rw [List.foldl_cons]
    simp only [if_pos h]
    rfl
  · rw [if_neg h]
    show List.foldl _ _ _ = _
    rw [List.foldl_cons]
    simp only [if_neg h]
    rfl

theorem sameFrame_revealAdjacent (l : List Pos) :
    ∀ (b : Board) (ps : List Pos), SameFrame b (revealAdjacent l b ps).1 := by
  induction l with
  | nil => intro b ps; exact sameFrame_refl b
  | cons a l ih =>
    intro b ps
    rw [revealAdjacent_cons]
    split
    · exact sameFrame_trans (sameFrame_refl _) (ih _ _)
    · exact ih b ps

theorem floodLoop_zero (b : Board) (tr v : List Pos) :
    floodLoop 0 b tr v = b := rfl

theorem floodLoop_nil (fuel : Nat) (b : Board) (v : List Pos) :
    floodLoop (fuel + 1) b [] v = b := rfl

theorem floodLoop_cons (fuel : Nat) (b : Board) (current : Pos)
    (rest visited : List Pos) :
    floodLoop (fuel + 1) b (current :: rest) visited =
      if current ∈ visited then floodLoop fuel b rest visited
      else
        floodLoop fuel (revealAdjacent (getAdjacentPositions b current) b []).1
          ((revealAdjacent (getAdjacentPositions b current) b []).2 ++ rest)
          (current :: visited) := rfl

theorem sameFrame_floodLoop : ∀ (fuel : Nat) (b : Board) (tr v : List Pos),
    SameFrame b (floodLoop fuel b tr v) := by
  intro fuel
  induction fuel with
  | zero => intro b tr v; exact sameFrame_refl b
  | succ n ih =>
    intro b tr v
    cases tr with
    | nil => exact sameFrame_refl b
    | cons current rest =>
      rw [floodLoop_cons]
      split
      · exact ih b rest v
      · exact sameFrame_trans
          (sameFrame_revealAdjacent (getAdjacentPositions b current) b []) (ih _ _ _)

theorem length_getAdjacentPositions_le (b : Board) (p : Pos) :
    (getAdjacentPositions b p).length ≤ 9 := by
  have hone : ∀ r c : Int,
      (if (0 ≤ r ∧ r < (b.height : Int) ∧ 0 ≤ c ∧ c < (b.width : Int)) ∧
          (r ≠ p.row ∨ c ≠ p.col) then ([⟨r, c⟩] : List Pos) else []).length ≤ 1 := by
    intro r c
    split <;> simp
  unfold getAdjacentPositions
  simp only [List.flatMap_cons, List.flatMap_nil, List.append_nil, List.length_append]
  have h11 := hone (p.row - 1) (p.col - 1)
  have h12 := hone (p.row - 1) p.col
  have h13 := hone (p.row - 1) (p.col + 1)
  have h21 := hone p.row (p.col - 1)
  have h22 := hone p.row p.col
  have h23 := hone p.row (p.col + 1)
  have h31 := hone (p.row + 1) (p.col - 1)
  have h32 := hone (p.row + 1) p.col
  have h33 := hone (p.row + 1) (p.col + 1)
  omega

/-! ## Extension-set machinery for the flood fill -/

theorem ext_of_iff {b cur : Board} {E E' : Set Pos}
    (h : ∀ q, q ∈ E ↔ q ∈ E') (hext : Ext b cur E) : Ext b cur E' := by
  obtain ⟨hw, hf, hin, hout, hbd⟩ := hext
  refine ⟨hw, hf, ?_, ?_, ?_⟩
  · intro q hq hqE; exact hin q hq ((h q).mpr hqE)
  · intro q hq hqE; exact hout q hq (fun hc => hqE ((h q).mp hc))
  · intro q hq; exact hbd q ((h q).mpr hq)

theorem inBounds_of_ext {b cur : Board} {E : Set Pos} (hext : Ext b cur E)
    {q : Pos} (hq : inBounds b q) : inBounds cur q := by
  obtain ⟨_, ⟨hwdt, hhgt, _, _, _⟩, _, _, _⟩ := hext
  exact (inBounds_congr hwdt hhgt q).mpr hq

theorem ext_revealOne {b cur : Board} {E : Set Pos} (hext : Ext b cur E)
    {q : Pos} (hq : inBounds b q) : Ext b (revealOne cur q) (E ∪ {q}) := by
  have hcurq := inBounds_of_ext hext hq
  obtain ⟨hw, hf, hin, hout, hbd⟩ := hext
  refine ⟨wellFormed_revealOne q hw hcurq, sameFrame_trans hf (sameFrame_refl _), ?_, ?_, ?_⟩
  · intro q' hq' hq'E
    have hcurq' := (inBounds_congr hf.1 hf.2.1 q').mpr hq'
    rw [getCell_revealOne q q' hw hcurq hcurq']
    by_cases hqq : q' = q
    · subst hqq
      rw [if_pos rfl]
      by_cases hqE : q' ∈ E
      · rw [hin q' hq' hqE]
      · rw [hout q' hq' hqE]
    · rw [if_neg hqq]
      rcases hq'E with hq'E | hq'E
      · exact hin q' hq' hq'E
      · exact absurd hq'E hqq
  · intro q' hq' hq'E
    have hcurq' := (inBounds_congr hf.1 hf.2.1 q').mpr hq'
    rw [getCell_revealOne q q' hw hcurq hcurq']
    rw [if_neg (fun hc : q' = q => hq'E (Or.inr hc))]
    exact hout q' hq' (fun hc => hq'E (Or.inl hc))
  · intro q' hq'
    rcases hq' with hq' | hq'
    · exact hbd q' hq'
    · rcases hq' with rfl; exact hq

theorem revealAdjacent_spec {b : Board} (l : List Pos) :
    ∀ (cur : Board) (ps : List Pos) (E : Set Pos), Ext b cur E →
      (∀ q ∈ l, inBounds b q) →
      Ext b (revealAdjacent l cur ps).1 (E ∪ { x | x ∈ l ∧ Hid b x }) ∧
      (∀ x, x ∈ (revealAdjacent l cur ps).2 ↔
        x ∈ ps ∨ (x ∈ l ∧ ZeroCell b x ∧ x ∉ E)) ∧
      (revealAdjacent l cur ps).2.length ≤ ps.length + l.length := by
  induction l with
  | nil =>
    intro cur ps E hext _
    rw [revealAdjacent_nil]
    refine ⟨ext_of_iff (fun q => ?_) hext, fun x => ?_, by simp⟩
    · simp
    · simp
  | cons a l ih =>
    intro cur ps E hext hbd
    have hain : inBounds b a := hbd a (List.mem_cons_self _ _)
    have hacur : inBounds cur a := inBounds_of_ext hext hain
    have hbdl : ∀ q ∈ l, inBounds b q := fun q hq => hbd q (List.mem_cons_of_mem _ hq)
    rw [revealAdjacent_cons]
    by_cases hcond : (getCell cur a).state = .hidden ∧ (getCell cur a).hasMine = false
    · -- the head cell is revealed now
      have haE : a ∉ E := by
        intro haE
        have := hext.2.2.1 a hain haE
        rw [this] at hcond
        exact absurd hcond.1 (by simp)
      have hba : getCell cur a = getCell b a := hext.2.2.2.1 a hain haE
      have hhid : Hid b a := by rw [Hid, ← hba]; exact hcond
      rw [if_pos hcond]
      obtain ⟨ih1, ih2, ih3⟩ := ih (revealOne cur a)
        (if (getCell cur a).adjacentMines = 0 then ps ++ [a] else ps)
        (E ∪ {a}) (ext_revealOne hext hain) hbdl
      refine ⟨ext_of_iff (fun q => ?_) ih1, fun x => ?_, ?_⟩
      · constructor
        · rintro (⟨hq | hq⟩ | ⟨hq1, hq2⟩)
          · exact Or.inl hq
          · rcases hq with rfl
            exact Or.inr ⟨List.mem_cons_self _ _, hhid⟩
          · exact Or.inr ⟨List.mem_cons_of_mem _ hq1, hq2⟩
        · rintro (hq | ⟨hq1, hq2⟩)
          · exact Or.inl (Or.inl hq)
          · rcases List.mem_cons.mp hq1 with rfl | hq1
            · exact Or.inl (Or.inr rfl)
            · exact Or.inr ⟨hq1, hq2⟩
      · rw [ih2 x]
        have hmem : x ∈ (if (getCell cur a).adjacentMines = 0 then ps ++ [a] else ps) ↔
            x ∈ ps ∨ ((getCell b a).adjacentMines = 0 ∧ x = a) := by
          split
          · next hz =>
            rw [hba] at hz
            simp only [List.mem_append, List.mem_singleton]
            constructor
            · rintro (h | h)
              · exact Or.inl h
              · exact Or.inr ⟨hz, h⟩
            · rintro (h | ⟨_, h⟩)
              · exact Or.inl h
              · exact Or.inr h
          · next hz =>
            rw [hba] at hz
            constructor
            · exact Or.inl
            · rintro (h | ⟨hzz, _⟩)
              · exact h
              · exact absurd hzz hz
        rw [hmem]
        constructor
        · rintro ((h | ⟨hz, rfl⟩) | ⟨h1, h2, h3⟩)
          · exact Or.inl h
          · exact Or.inr ⟨List.mem_cons_self _ _, ⟨hhid, hz⟩, haE⟩
          · refine Or.inr ⟨List.mem_cons_of_mem _ h1, h2, fun hc => h3 (Or.inl hc)⟩
        · rintro (h | ⟨h1, h2, h3⟩)
          · exact Or.inl (Or.inl h)
          · by_cases hxa : x = a
            · subst hxa
              exact Or.inl (Or.inr ⟨h2.2, rfl⟩)
            · rcases List.mem_cons.mp h1 with rfl | h1
              · exact absurd rfl hxa
              · refine Or.inr ⟨h1, h2, ?_⟩
                rintro (hc | hc)
                · exact h3 hc
                · exact hxa hc
      · refine le_trans ih3 ?_
        split
        · simp only [List.length_append, List.length_cons, List.length_singleton,
            List.length_nil]
          omega
        · simp only [List.length_cons]
          omega
    · -- head cell skipped: it is either already revealed or not revealable
      have hnot : a ∈ E ∨ ¬Hid b a := by
        by_cases haE : a ∈ E
        · exact Or.inl haE
        · right
          rw [Hid, ← hext.2.2.2.1 a hain haE]
          exact hcond
      rw [if_neg hcond]
      obtain ⟨ih1, ih2, ih3⟩ := ih cur ps E hext hbdl
      refine ⟨ext_of_iff (fun q => ?_) ih1, fun x => ?_, ?_⟩
      · constructor
        · rintro (hq | ⟨hq1, hq2⟩)
          · exact Or.inl hq
          · exact Or.inr ⟨List.mem_cons_of_mem _ hq1, hq2⟩
        · rintro (hq | ⟨hq1, hq2⟩)
          · exact Or.inl hq
          · rcases List.mem_cons.mp hq1 with rfl | hq1
            · rcases hnot with h | h
              · exact Or.inl h
              · exact absurd hq2 h
            · exact Or.inr ⟨hq1, hq2⟩
      · rw [ih2 x]
        constructor
        · rintro (h | ⟨h1, h2, h3⟩)
          · exact Or.inl h
          · exact Or.inr ⟨List.mem_cons_of_mem _ h1, h2, h3⟩
        · rintro (h | ⟨h1, h2, h3⟩)
          · exact Or.inl h
          · rcases List.mem_cons.mp h1 with rfl | h1
            · rcases hnot with h | h
              · exact absurd h h3
              · exact absurd h2.1 h
            · exact Or.inr ⟨h1, h2, h3⟩
      · refine le_trans ih3 ?_
        simp only [List.length_cons]
        omega

theorem rowMajor_encode_inj {w r1 c1 r2 c2 : Nat} (h1 : c1 < w) (h2 : c2 < w)
    (he : r1 * w + c1 = r2 * w + c2) : r1 = r2 ∧ c1 = c2 := by
  have hkey : ∀ a1 b1 a2 b2 : Nat, b1 < w → b2 < w → a1 < a2 →
      a1 * w + b1 < a2 * w + b2 := by
    intro a1 b1 a2 b2 hb1 hb2 ha
    calc a1 * w + b1 < a1 * w + w := by omega
      _ = (a1 + 1) * w := by ring
      _ ≤ a2 * w := Nat.mul_le_mul_right _ (by omega)
      _ ≤ a2 * w + b2 := by omega
  have hr : r1 = r2 := by
    rcases Nat.lt_trichotomy r1 r2 with h | h | h
    · exact absurd he (Nat.ne_of_lt (hkey _ _ _ _ h1 h2 h))
    · exact h
    · exact absurd he.symm (Nat.ne_of_lt (hkey _ _ _ _ h2 h1 h))
  subst hr
  omega

theorem length_le_area {b : Board} {l : List Pos} (hnd : l.Nodup)
    (hin : ∀ x ∈ l, inBounds b x) : l.length ≤ b.width * b.height := by
  classical
  set f : Pos → Nat := fun q => q.row.toNat * b.width + q.col.toNat with hf
  have hmapnd : (l.map f).Nodup := by
    refine List.Nodup.map_on ?_ hnd
    intro x hx y hy hxy
    obtain ⟨hx1, hx2, hx3, hx4⟩ := hin x hx
    obtain ⟨hy1, hy2, hy3, hy4⟩ := hin y hy
    rw [hf] at hxy
    simp only at hxy
    have hxc : x.col.toNat < b.width := by omega
    have hyc : y.col.toNat < b.width := by omega
    obtain ⟨hr, hc⟩ := rowMajor_encode_inj hxc hyc hxy
    rw [Pos.ext_iff]
    constructor <;> omega
  have hsub : (l.map f).toFinset ⊆ Finset.range (b.width * b.height) := by
    intro y hy
    rw [List.mem_toFinset, List.mem_map] at hy
    obtain ⟨x, hx, rfl⟩ := hy
    obtain ⟨hx1, hx2, hx3, hx4⟩ := hin x hx
    rw [Finset.mem_range, hf]
    simp only
    have h1 : x.row.toNat < b.height := by omega
    have h2 : x.col.toNat < b.width := by omega
    calc x.row.toNat * b.width + x.col.toNat
        < x.row.toNat * b.width + b.width := by omega
      _ = (x.row.toNat + 1) * b.width := by ring
      _ ≤ b.height * b.width := Nat.mul_le_mul_right _ (by omega)
      _ = b.width * b.height := Nat.mul_comm _ _
  calc l.length = (l.map f).length := (List.length_map _ _).symm
    _ = (l.map f).toFinset.card := (List.toFinset_card_of_nodup hmapnd).symm
    _ ≤ (Finset.range (b.width * b.height)).card := Finset.card_le_card hsub
    _ = b.width * b.height := Finset.card_range _

theorem mem_exploredSet {b : Board} {p q : Pos} {v : List Pos} :
    q ∈ ExploredSet b p v ↔
      q = p ∨ (Hid b q ∧ ∃ x ∈ v, q ∈ getAdjacentPositions b x) := Iff.rfl

/-- Invariant-based correctness of the flood-fill worklist loop: with
enough fuel, starting from any loop state satisfying the invariant, the
loop ends having explored some superset `V'` of `v` that is closed under
zero-cell expансion, and the board is the base board with exactly the
explored set's reveal-frontier revealed. -/
theorem floodLoop_spec {b : Board} {p : Pos} :
    ∀ (fuel : Nat) (cur : Board) (tr v : List Pos),
      Ext b cur (ExploredSet b p v) →
      (∀ x ∈ v, ZeroReach b p x) →
      (∀ x ∈ tr, ZeroReach b p x) →
      (∀ x ∈ v, ∀ q ∈ getAdjacentPositions b x, ZeroCell b q → q ∈ v ∨ q ∈ tr) →
      (p ∈ v ∨ p ∈ tr) →
      (∀ x ∈ v, inBounds b x) →
      (∀ x ∈ tr, inBounds b x) →
      v.Nodup →
      10 * (b.width * b.height - v.length) + tr.length ≤ fuel →
      ∃ V' : List Pos,
        Ext b (floodLoop fuel cur tr v) (ExploredSet b p V') ∧
        (∀ x ∈ V', ZeroReach b p x) ∧
        (∀ x ∈ v, x ∈ V') ∧ p ∈ V' ∧
        (∀ x ∈ V', ∀ q ∈ getAdjacentPositions b x, ZeroCell b q → q ∈ V') := by
  intro fuel
  induction fuel with
  | zero =>
    intro cur tr v hext hvr htr hfr hp hvb htb hnd hfuel
    have htre : tr = [] := List.length_eq_zero.mp (by omega)
    subst htre
    rw [floodLoop_zero]
    refine ⟨v, hext, hvr, fun x hx => hx, ?_, ?_⟩
    · rcases hp with h | h
      · exact h
      · simp at h
    · intro x hx q hq hz
      rcases hfr x hx q hq hz with h | h
      · exact h
      · simp at h
  | succ n ih =>
    intro cur tr v hext hvr htr hfr hp hvb htb hnd hfuel
    cases tr with
    | nil =>
      rw [floodLoop_nil]
      refine ⟨v, hext, hvr, fun x hx => hx, ?_, ?_⟩
      · rcases hp with h | h
        · exact h
        · simp at h
      · intro x hx q hq hz
        rcases hfr x hx q hq hz with h | h
        · exact h
        · simp at h
    | cons current rest =>
      rw [floodLoop_cons]
      by_cases hcv : current ∈ v
      · rw [if_pos hcv]
        have hfr' : ∀ x ∈ v, ∀ q ∈ getAdjacentPositions b x, ZeroCell b q →
            q ∈ v ∨ q ∈ rest := by
          intro x hx q hq hz
          rcases hfr x hx q hq hz with h | h
          · exact Or.inl h
          · rcases List.mem_cons.mp h with rfl | h
            · exact Or.inl hcv
            · exact Or.inr h
        have hp' : p ∈ v ∨ p ∈ rest := by
          rcases hp with h | h
          · exact Or.inl h
          · rcases List.mem_cons.mp h with rfl | h
            · exact Or.inl hcv
            · exact Or.inr h
        refine ih cur rest v hext hvr
          (fun x hx => htr x (List.mem_cons_of_mem _ hx)) hfr' hp' hvb
          (fun x hx => htb x (List.mem_cons_of_mem _ hx)) hnd ?_
        rw [List.length_cons] at hfuel
        omega
      · rw [if_neg hcv]
        have hadjeq : getAdjacentPositions cur current = getAdjacentPositions b current :=
          getAdjacentPositions_congr hext.2.1.1 hext.2.1.2.1 current
        have hcur_in : inBounds b current := htb current (List.mem_cons_self _ _)
        have hcur_reach : ZeroReach b p current := htr current (List.mem_cons_self _ _)
        have hadjb : ∀ q ∈ getAdjacentPositions b current, inBounds b q :=
          fun q hq => inBounds_of_mem_adjacent hq
        obtain ⟨hext1, hpush, hlen⟩ := revealAdjacent_spec (getAdjacentPositions b current)
          cur [] (ExploredSet b p v) hext hadjb
        rw [hadjeq]
        have hsete : ∀ q, q ∈ (ExploredSet b p v ∪
            { x | x ∈ getAdjacentPositions b current ∧ Hid b x }) ↔
            q ∈ ExploredSet b p (current :: v) := by
          intro q
          constructor
          · rintro (hq | ⟨hq1, hq2⟩)
            · rcases hq with hq | ⟨hq1, x, hx, hq2⟩
              · exact Or.inl hq
              · exact Or.inr ⟨hq1, x, List.mem_cons_of_mem _ hx, hq2⟩
            · exact Or.inr ⟨hq2, current, List.mem_cons_self _ _, hq1⟩
          · rintro (hq | ⟨hq1, x, hx, hq2⟩)
            · exact Or.inl (Or.inl hq)
            · rcases List.mem_cons.mp hx with rfl | hx
              · exact Or.inr ⟨hq2, hq1⟩
              · exact Or.inl (Or.inr ⟨hq1, x, hx, hq2⟩)
        have hext2 := ext_of_iff hsete hext1
        have hzero_step : ∀ x, x ∈ (revealAdjacent (getAdjacentPositions b current)
            cur []).2 → ZeroReach b p x := by
          intro x hx
          rcases (hpush x).mp hx with h | ⟨h1, ⟨⟨h2, h3⟩, h4⟩, _⟩
          · simp at h
          · exact ZeroReach.step current x hcur_reach h1 h2 h3 h4
        have htr' : ∀ x ∈ (revealAdjacent (getAdjacentPositions b current) cur []).2 ++
            rest, ZeroReach b p x := by
          intro x hx
          rcases List.mem_append.mp hx with h | h
          · exact hzero_step x h
          · exact htr x (List.mem_cons_of_mem _ h)
        have hvr' : ∀ x ∈ current :: v, ZeroReach b p x := by
          intro x hx
          rcases List.mem_cons.mp hx with rfl | hx
          · exact hcur_reach
          · exact hvr x hx
        have hrelocate : ∀ q, q ∈ v ∨ q ∈ current :: rest →
            q ∈ current :: v ∨ q ∈ (revealAdjacent (getAdjacentPositions b current)
              cur []).2 ++ rest := by
          intro q hq
          rcases hq with h | h
          · exact Or.inl (List.mem_cons_of_mem _ h)
          · rcases List.mem_cons.mp h with rfl | h
            · exact Or.inl (List.mem_cons_self _ _)
            · exact Or.inr (List.mem_append.mpr (Or.inr h))
        have hfr' : ∀ x ∈ current :: v, ∀ q ∈ getAdjacentPositions b x, ZeroCell b q →
            q ∈ current :: v ∨ q ∈ (revealAdjacent (getAdjacentPositions b current)
              cur []).2 ++ rest := by
          intro x hx q hq hz
          rcases List.mem_cons.mp hx with rfl | hx
          · by_cases hqE : q ∈ ExploredSet b p v
            · rcases hqE with hqe | ⟨_, x', hx', hq'⟩
              · rcases hqe with rfl
                exact hrelocate q hp
              · exact hrelocate q (hfr x' hx' q hq' hz)
            · refine Or.inr (List.mem_append.mpr (Or.inl ?_))
              exact (hpush q).mpr (Or.inr ⟨hq, hz, hqE⟩)
          · exact hrelocate q (hfr x hx q hq hz)
        have hp' : p ∈ current :: v ∨
            p ∈ (revealAdjacent (getAdjacentPositions b current) cur []).2 ++ rest :=
          hrelocate p hp
        have hvb' : ∀ x ∈ current :: v, inBounds b x := by
          intro x hx
          rcases List.mem_cons.mp hx with rfl | hx
          · exact hcur_in
          · exact hvb x hx
        have htb' : ∀ x ∈ (revealAdjacent (getAdjacentPositions b current) cur []).2 ++
            rest, inBounds b x := by
          intro x hx
          rcases List.mem_append.mp hx with h | h
          · rcases (hpush x).mp h with h | ⟨h1, _, _⟩
            · simp at h
            · exact inBounds_of_mem_adjacent h1
          · exact htb x (List.mem_cons_of_mem _ h)
        have hnd' : (current :: v).Nodup := List.nodup_cons.mpr ⟨hcv, hnd⟩
        have harea : (current :: v).length ≤ b.width * b.height :=
          length_le_area hnd' hvb'
        have hpl : (revealAdjacent (getAdjacentPositions b current) cur []).2.length ≤ 9 := by
          have := length_getAdjacentPositions_le b current
          simp only [List.length_nil] at hlen
          omega
        have hfuel' : 10 * (b.width * b.height - (current :: v).length) +
            ((revealAdjacent (getAdjacentPositions b current) cur []).2 ++ rest).length ≤ n := by
          simp only [List.length_append, List.length_cons] at hfuel harea hpl ⊢
          generalize b.width * b.height = m at harea hfuel ⊢
          omega
        obtain ⟨V', h1, h2, h3, h4, h5⟩ := ih _ _ _ hext2 hvr' htr' hfr' hp' hvb' htb' hnd' hfuel'
        exact ⟨V', h1, h2, fun x hx => h3 x (List.mem_cons_of_mem _ hx), h4, h5⟩

/-! ## revealCell / toggleFlag branch lemmas -/

theorem revealCell_oob {b : Board} {p : Pos}
    (h : p.row < 0 ∨ p.row ≥ (b.height : Int) ∨ p.col < 0 ∨ p.col ≥ (b.width : Int)) :
    revealCell b p = b := by
  simp only [revealCell]
  rw [if_pos h]

theorem toggleFlag_oob {b : Board} {p : Pos}
    (h : p.row < 0 ∨ p.row ≥ (b.height : Int) ∨ p.col < 0 ∨ p.col ≥ (b.width : Int)) :
    toggleFlag b p = b := by
  simp only [toggleFlag]
  rw [if_pos h]

theorem revealCell_noop {b : Board} {p : Pos}
    (hin : ¬(p.row < 0 ∨ p.row ≥ (b.height : Int) ∨ p.col < 0 ∨ p.col ≥ (b.width : Int)))
    (hst : (getCell b p).state = .revealed ∨ (getCell b p).state = .flagged) :
    revealCell b p = b := by
  simp only [revealCell]
  rw [if_neg hin, if_pos hst]

theorem revealCell_mine_eq {b : Board} {p : Pos}
    (hin : ¬(p.row < 0 ∨ p.row ≥ (b.height : Int) ∨ p.col < 0 ∨ p.col ≥ (b.width : Int)))
    (hst : ¬((getCell b p).state = .revealed ∨ (getCell b p).state = .flagged))
    (hm : (getCell b p).hasMine = true) :
    revealCell b p =
      mapCells
        { setCell { b with firstClick := false } p
            { getCell b p with state := .exploded } with gameStatus := .lost }
        (fun _ c => if c.hasMine ∧ c.state ≠ .exploded then { c with state := .mine } else c) := by
  simp only [revealCell]
  rw [if_neg hin, if_neg hst, if_pos hm]

theorem revealCell_safe_eq {b : Board} {p : Pos}
    (hin : ¬(p.row < 0 ∨ p.row ≥ (b.height : Int) ∨ p.col < 0 ∨ p.col ≥ (b.width : Int)))
    (hst : ¬((getCell b p).state = .revealed ∨ (getCell b p).state = .flagged))
    (hm : (getCell b p).hasMine = false) :
    revealCell b p =
      (let b1 := revealOne { b with firstClick := false } p
       let b2 :=
         if (getCell b p).adjacentMines = 0 then
           floodLoop (10 * (b.width * b.height) + 1) b1 [p] []
         else b1
       if b2.revealedCount = (b.width : Int) * (b.height : Int) - b.mineCount then
         { b2 with gameStatus := .won }
       else b2) := by
  simp only [revealCell]
  rw [if_neg hin, if_neg hst, if_neg (by simp [hm])]

theorem toggleFlag_gameStatus (b : Board) (p : Pos) :
    (toggleFlag b p).gameStatus = b.gameStatus := by
  simp only [toggleFlag]
  split
  · rfl
  · split
    · rfl
    · split <;> rfl

theorem not_oob_iff {b : Board} {p : Pos} :
    ¬(p.row < 0 ∨ p.row ≥ (b.height : Int) ∨ p.col < 0 ∨ p.col ≥ (b.width : Int)) ↔
      inBounds b p := by
  unfold inBounds
  omega

theorem board_ext {b1 b2 : Board} (hc : b1.cells = b2.cells) (hw : b1.width = b2.width)
    (hh : b1.height = b2.height) (hm : b1.mineCount = b2.mineCount)
    (hr : b1.revealedCount = b2.revealedCount) (hf : b1.flaggedCount = b2.flaggedCount)
    (hg : b1.gameStatus = b2.gameStatus) (hk : b1.firstClick = b2.firstClick) :
    b1 = b2 := by
  cases b1
  cases b2
  simp only [Board.mk.injEq]
  exact ⟨hc, hw, hh, hm, hr, hf, hg, hk⟩

theorem cell_state_update_self {c : Cell} {s : CellState} (h : c.state = s) :
    { c with state := s } = c := by
  cases c
  cases h
  rfl

theorem setCell_setCell {b : Board} (p : Pos) (c1 c2 : Cell)
    (hw : WellFormed b) (hp : inBounds b p) :
    setCell (setCell b p c1) p c2 = setCell b p c2 := by
  obtain ⟨hlen, hrows⟩ := hw
  obtain ⟨hp1, hp2, hp3, hp4⟩ := hp
  have hrp : p.row.toNat < b.cells.length := by omega
  unfold setCell
  simp only [List.getD_eq_getElem?_getD, List.getElem?_set_self hrp, Option.getD_some,
    List.set_set]

theorem setCell_getCell_self {b : Board} (p : Pos)
    (hw : WellFormed b) (hp : inBounds b p) : setCell b p (getCell b p) = b := by
  obtain ⟨hlen, hrows⟩ := hw
  obtain ⟨hp1, hp2, hp3, hp4⟩ := hp
  have hrp : p.row.toNat < b.cells.length := by omega
  have hwidth : b.cells[p.row.toNat].length = b.width :=
    hrows _ (b.cells.getElem_mem hrp)
  have hcp : p.col.toNat < b.cells[p.row.toNat].length := by omega
  unfold setCell getCell
  refine board_ext ?_ rfl rfl rfl rfl rfl rfl rfl
  show b.cells.set p.row.toNat _ = b.cells
  rw [List.getD_eq_getElem?_getD, List.getElem?_eq_getElem hrp, Option.getD_some]
  rw [List.getD_eq_getElem?_getD, List.getElem?_eq_getElem hcp, Option.getD_some]
  rw [list_set_self _ _ hcp, list_set_self _ _ hrp]

theorem toggleFlag_noop {b : Board} {p : Pos}
    (hst : (getCell b p).state = .revealed ∨ (getCell b p).state = .mine ∨
      (getCell b p).state = .exploded) :
    toggleFlag b p = b := by
  by_cases hin : p.row < 0 ∨ p.row ≥ (b.height : Int) ∨ p.col < 0 ∨ p.col ≥ (b.width : Int)
  · exact toggleFlag_oob hin
  · simp only [toggleFlag]
    rw [if_neg hin, if_pos hst]

theorem toggleFlag_hidden_eq {b : Board} {p : Pos}
    (hin : ¬(p.row < 0 ∨ p.row ≥ (b.height : Int) ∨ p.col < 0 ∨ p.col ≥ (b.width : Int)))
    (hst : (getCell b p).state = .hidden) :
    toggleFlag b p =
      { setCell b p { getCell b p with state := .flagged } with
          flaggedCount := b.flaggedCount + 1 } := by
  simp only [toggleFlag]
  rw [if_neg hin, if_neg (by simp [hst]), if_neg (by simp [hst])]
  rfl

theorem toggleFlag_flagged_eq {b : Board} {p : Pos}
    (hin : ¬(p.row < 0 ∨ p.row ≥ (b.height : Int) ∨ p.col < 0 ∨ p.col ≥ (b.width : Int)))
    (hst : (getCell b p).state = .flagged) :
    toggleFlag b p =
      { setCell b p { getCell b p with state := .hidden } with
          flaggedCount := b.flaggedCount - 1 } := by
  simp only [toggleFlag]
  rw [if_neg hin, if_neg (by simp [hst]), if_pos hst]
  rfl

theorem revealCell_gameStatus (b : Board) (p : Pos) :
    (revealCell b p).gameStatus = b.gameStatus ∨
      (revealCell b p).gameStatus = .won ∨ (revealCell b p).gameStatus = .lost := by
  by_cases h1 : p.row < 0 ∨ p.row ≥ (b.height : Int) ∨ p.col < 0 ∨ p.col ≥ (b.width : Int)
  · rw [revealCell_oob h1]; exact Or.inl rfl
  · by_cases h2 : (getCell b p).state = .revealed ∨ (getCell b p).state = .flagged
    · rw [revealCell_noop h1 h2]; exact Or.inl rfl
    · by_cases h3 : (getCell b p).hasMine = true
      · rw [revealCell_mine_eq h1 h2 h3]
        exact Or.inr (Or.inr rfl)
      · rw [revealCell_safe_eq h1 h2 (by simpa using h3)]
        by_cases h4 : (getCell b p).adjacentMines = 0
        · simp only [if_pos h4]
          split
          · exact Or.inr (Or.inl rfl)
          · exact Or.inl (sameFrame_floodLoop _ _ _ _).2.2.2.2
        · simp only [if_neg h4]
          split
          · exact Or.inr (Or.inl rfl)
          · exact Or.inl rfl

/-! ## Claim C2 — board status transitions -/

/-- Claim C2 (amended): `toggleFlag` never changes `gameStatus`, and
`revealCell` either preserves the status or sets it to `won` or `lost`;
in particular, from `playing` the only transitions are to `won` and
`lost`.  However, `revealCell` does not guard terminal states, so a
terminal status can still change (see the counterexample). -/
theorem status_transitions (b : Board) (p : Pos) :
    (toggleFlag b p).gameStatus = b.gameStatus ∧
      ((revealCell b p).gameStatus = b.gameStatus ∨
        (revealCell b p).gameStatus = .won ∨ (revealCell b p).gameStatus = .lost) :=
  ⟨toggleFlag_gameStatus b p, revealCell_gameStatus b p⟩

/-- Claim C2 counterexample: on a lost 1×2 board whose only non-mine
cell is still hidden, `revealCell` flips the status from `lost` to
`won` — terminal statuses are not preserved by the public operations. -/
theorem status_monotonic_cex :
    lostBoard.gameStatus = GameStatus.lost ∧
      (revealCell lostBoard ⟨0, 0⟩).gameStatus = GameStatus.won := by
  constructor
  · rfl
  · decide

/-! ## Claim C7 — flag toggling -/

/-- Claim C7: on a well-formed board, toggling a flag twice at an
in-bounds hidden cell restores the board exactly (structural equality,
`flaggedCount` included); `toggleFlag` at a revealed / mine / exploded
cell, or at an out-of-bounds position, returns the board unmodified. -/
theorem flag_toggle_props (b : Board) (p : Pos) :
    (WellFormed b → inBounds b p → (getCell b p).state = .hidden →
      toggleFlag (toggleFlag b p) p = b) ∧
    ((getCell b p).state = .revealed ∨ (getCell b p).state = .mine ∨
        (getCell b p).state = .exploded → toggleFlag b p = b) ∧
    (p.row < 0 ∨ p.row ≥ (b.height : Int) ∨ p.col < 0 ∨ p.col ≥ (b.width : Int) →
      toggleFlag b p = b) := by
  refine ⟨?_, toggleFlag_noop, toggleFlag_oob⟩
  intro hw hin hst
  have hoob : ¬(p.row < 0 ∨ p.row ≥ (b.height : Int) ∨ p.col < 0 ∨
      p.col ≥ (b.width : Int)) := not_oob_iff.mpr hin
  have e1 := toggleFlag_hidden_eq hoob hst
  have hget1 : getCell (toggleFlag b p) p = { getCell b p with state := .flagged } := by
    rw [e1]
    show getCell (setCell b p { getCell b p with state := .flagged }) p = _
    rw [getCell_setCell p p _ hw hin hin, if_pos rfl]
  have hoob1 : ¬(p.row < 0 ∨ p.row ≥ ((toggleFlag b p).height : Int) ∨ p.col < 0 ∨
      p.col ≥ ((toggleFlag b p).width : Int)) := by
    rw [e1]; exact hoob
  have hst1 : (getCell (toggleFlag b p) p).state = .flagged := by rw [hget1]
  have e2 := toggleFlag_flagged_eq hoob1 hst1
  rw [e2, hget1]
  have hcc : ({ { getCell b p with state := .flagged } with state := .hidden } : Cell) =
      getCell b p := by
    show ({ getCell b p with state := .hidden } : Cell) = getCell b p
    exact cell_state_update_self hst
  rw [hcc]
  have hWw : (toggleFlag b p).width = b.width := by rw [e1]; rfl
  have hHh : (toggleFlag b p).height = b.height := by rw [e1]; rfl
  have hMm : (toggleFlag b p).mineCount = b.mineCount := by rw [e1]; rfl
  have hRr : (toggleFlag b p).revealedCount = b.revealedCount := by rw [e1]; rfl
  have hGg : (toggleFlag b p).gameStatus = b.gameStatus := by rw [e1]; rfl
  have hKk : (toggleFlag b p).firstClick = b.firstClick := by rw [e1]; rfl
  refine board_ext ?_ hWw hHh hMm hRr ?_ hGg hKk
  · show (setCell (toggleFlag b p) p (getCell b p)).cells = b.cells
    rw [e1]
    show (setCell (setCell b p { getCell b p with state := .flagged }) p
      (getCell b p)).cells = b.cells
    rw [setCell_setCell p _ _ hw hin, setCell_getCell_self p hw hin]
  · show (toggleFlag b p).flaggedCount - 1 = b.flaggedCount
    rw [e1]
    show b.flaggedCount + 1 - 1 = b.flaggedCount
    omega

/-- Claim C7 witness: a concrete double toggle restoring a board, and
concrete no-ops. -/
theorem flag_toggle_props_witness :
    (WellFormed lostBoard ∧ inBounds lostBoard ⟨0, 0⟩ ∧
      (getCell lostBoard ⟨0, 0⟩).state = .hidden ∧
      toggleFlag (toggleFlag lostBoard ⟨0, 0⟩) ⟨0, 0⟩ = lostBoard) ∧
    ((getCell tinyRevealedBoard ⟨0, 0⟩).state = .revealed ∧
      toggleFlag tinyRevealedBoard ⟨0, 0⟩ = tinyRevealedBoard) := by
  constructor
  · refine ⟨?_, ?_, ?_, ?_⟩
    · constructor
      · decide
      · decide
    · decide
    · decide
    · exact (flag_toggle_props lostBoard ⟨0, 0⟩).1
        ⟨by decide, by decide⟩ (by decide) (by decide)
  · exact ⟨by decide, (flag_toggle_props tinyRevealedBoard ⟨0, 0⟩).2.1 (by decide)⟩

/-! ## Board generation lemmas -/

theorem foldl_preserve {α β : Type _} (P : α → Prop) (f : α → β → α) (l : List β)
    (init : α) (h0 : P init) (hstep : ∀ acc x, x ∈ l → P acc → P (f acc x)) :
    P (l.foldl f init) := by
  induction l generalizing init with
  | nil => exact h0
  | cons a as ih =>
    rw [List.foldl_cons]
    exact ih _ (hstep init a (List.mem_cons_self _ _) h0)
      (fun acc x hx hp => hstep acc x (List.mem_cons_of_mem _ hx) hp)

theorem of_mem_availablePositions {w h : Nat} {sz : Option Pos} {q : Pos}
    (hq : q ∈ availablePositions w h sz) :
    (0 ≤ q.row ∧ q.row < (h : Int) ∧ 0 ≤ q.col ∧ q.col < (w : Int)) ∧
      (∀ s, sz = some s →
        ¬((q.row - s.row).natAbs ≤ 1 ∧ (q.col - s.col).natAbs ≤ 1)) := by
  unfold availablePositions at hq
  rw [List.mem_flatMap] at hq
  obtain ⟨row, hrow, hq⟩ := hq
  rw [List.mem_flatMap] at hq
  obtain ⟨col, hcol, hq⟩ := hq
  rw [List.mem_range] at hrow
  rw [List.mem_range] at hcol
  cases sz with
  | none =>
    rcases List.mem_singleton.mp hq with rfl
    refine ⟨⟨by simp, by simp; omega, by simp, by simp; omega⟩, ?_⟩
    intro s hs
    cases hs
  | some s =>
    dsimp only at hq
    split at hq
    · simp at hq
    · next hcond =>
      rcases List.mem_singleton.mp hq with rfl
      refine ⟨⟨by simp, by simp; omega, by simp, by simp; omega⟩, ?_⟩
      intro s' hs'
      obtain rfl := Option.some.inj hs'
      exact hcond

theorem selectMinePosition_mem {available placed : List Pos} {k : Nat} {pos : Pos}
    (h : selectMinePosition available placed k = some pos) : pos ∈ available := by
  unfold selectMinePosition at h
  cases available with
  | nil => cases h
  | cons a l => exact List.getElem?_mem h

theorem getCell_calculateAdjacentMines {b : Board} (q : Pos)
    (hw : WellFormed b) (hq : inBounds b q) :
    getCell (calculateAdjacentMines b) q =
      (if (getCell b q).hasMine = false then
        { getCell b q with adjacentMines := countAdjacentMines b q }
      else getCell b q) := by
  unfold calculateAdjacentMines
  rw [getCell_mapCells _ q hw hq]
  by_cases hm : (getCell b q).hasMine = false
  · rw [if_pos hm]
    have : (!(getCell b q).hasMine) = true := by rw [hm]; rfl
    rw [if_pos this]
  · rw [if_neg hm]
    have : ¬(!(getCell b q).hasMine) = true := by
      simp only [Bool.not_eq_false] at hm
      rw [hm]; decide
    rw [if_neg this]

theorem countAdjacentMines_congr {b b' : Board} (hww : b'.width = b.width)
    (hhh : b'.height = b.height)
    (hmine : ∀ q, inBounds b q → (getCell b' q).hasMine = (getCell b q).hasMine)
    (p : Pos) : countAdjacentMines b' p = countAdjacentMines b p := by
  unfold countAdjacentMines
  rw [getAdjacentPositions_congr hww hhh]
  congr 2
  apply List.filter_congr
  intro x hx
  rw [hmine x (inBounds_of_mem_adjacent hx)]

theorem calculateAdjacentMines_spec {b : Board} (hw : WellFormed b) :
    WellFormed (calculateAdjacentMines b) ∧
    SameFrame b (calculateAdjacentMines b) ∧
    (∀ q, inBounds b q →
      (getCell (calculateAdjacentMines b) q).hasMine = (getCell b q).hasMine ∧
      (getCell (calculateAdjacentMines b) q).state = (getCell b q).state) ∧
    ClueCorrect (calculateAdjacentMines b) := by
  have hframe : SameFrame b (calculateAdjacentMines b) := ⟨rfl, rfl, rfl, rfl, rfl⟩
  have hpt : ∀ q, inBounds b q →
      (getCell (calculateAdjacentMines b) q).hasMine = (getCell b q).hasMine ∧
      (getCell (calculateAdjacentMines b) q).state = (getCell b q).state := by
    intro q hq
    rw [getCell_calculateAdjacentMines q hw hq]
    split
    · exact ⟨rfl, rfl⟩
    · exact ⟨rfl, rfl⟩
  refine ⟨wellFormed_mapCells _ hw, hframe, hpt, ?_⟩
  intro q hq hqm
  have hq' : inBounds b q := (inBounds_congr hframe.1 hframe.2.1 q).mp hq
  have hcnt : countAdjacentMines (calculateAdjacentMines b) q = countAdjacentMines b q :=
    countAdjacentMines_congr hframe.1 hframe.2.1 (fun x hx => (hpt x hx).1) q
  rw [hcnt]
  rw [getCell_calculateAdjacentMines q hw hq'] at hqm ⊢
  have hm : (getCell b q).hasMine = false := by
    by_cases h : (getCell b q).hasMine = false
    · exact h
    · rw [if_neg h] at hqm
      exact absurd hqm h
  rw [if_pos hm]

theorem mineStep_preserve (picks : Nat → Nat) (w h : Nat) (sz : Option Pos)
    (acc : Board × List Pos × List Pos) (i : Nat)
    (hPw : WellFormed acc.1) (hPd1 : acc.1.width = w) (hPd2 : acc.1.height = h)
    (hPa : ∀ q ∈ acc.2.1, q ∈ availablePositions w h sz)
    (hPc : ∀ q, inBounds acc.1 q → (getCell acc.1 q).state = .hidden ∧
      ((getCell acc.1 q).hasMine = true → q ∈ availablePositions w h sz)) :
    WellFormed (mineStep picks acc i).1 ∧ (mineStep picks acc i).1.width = w ∧
    (mineStep picks acc i).1.height = h ∧
    (∀ q ∈ (mineStep picks acc i).2.1, q ∈ availablePositions w h sz) ∧
    (∀ q, inBounds (mineStep picks acc i).1 q →
      (getCell (mineStep picks acc i).1 q).state = .hidden ∧
      ((getCell (mineStep picks acc i).1 q).hasMine = true →
        q ∈ availablePositions w h sz)) := by
  unfold mineStep
  cases hsel : selectMinePosition acc.2.1 acc.2.2 (picks i) with
  | none => exact ⟨hPw, hPd1, hPd2, hPa, hPc⟩
  | some position =>
    have hpos_av : position ∈ availablePositions w h sz :=
      hPa position (selectMinePosition_mem hsel)
    have hpos_in : inBounds acc.1 position := by
      obtain ⟨⟨ha, hb', hc, hd⟩, _⟩ := of_mem_availablePositions hpos_av
      exact ⟨ha, by rw [hPd2]; exact hb', hc, by rw [hPd1]; exact hd⟩
    dsimp only
    refine ⟨wellFormed_setCell position _ hPw hpos_in, by simpa using hPd1,
      by simpa using hPd2, ?_, ?_⟩
    · intro q hq
      exact hPa q (List.mem_of_mem_erase hq)
    · intro q hq
      have hq' : inBounds acc.1 q := hq
      rw [getCell_setCell position q _ hPw hpos_in hq']
      by_cases hqp : q = position
      · rw [if_pos hqp]
        refine ⟨(hPc position hpos_in).1, fun _ => by rw [hqp]; exact hpos_av⟩
      · rw [if_neg hqp]
        exact hPc q hq'

theorem createBoardWithMines_spec (w h : Nat) (m : Int) (sz : Option Pos)
    (picks : Nat → Nat) :
    WellFormed (createBoardWithMines w h m sz picks) ∧
    (createBoardWithMines w h m sz picks).width = w ∧
    (createBoardWithMines w h m sz picks).height = h ∧
    (∀ q, inBounds (createBoardWithMines w h m sz picks) q →
      (getCell (createBoardWithMines w h m sz picks) q).state = .hidden ∧
      ((getCell (createBoardWithMines w h m sz picks) q).hasMine = true →
        q ∈ availablePositions w h sz)) ∧
    ClueCorrect (createBoardWithMines w h m sz picks) := by
  have hfold := foldl_preserve
    (fun acc : Board × List Pos × List Pos =>
      WellFormed acc.1 ∧ acc.1.width = w ∧ acc.1.height = h ∧
      (∀ q ∈ acc.2.1, q ∈ availablePositions w h sz) ∧
      (∀ q, inBounds acc.1 q → (getCell acc.1 q).state = .hidden ∧
        ((getCell acc.1 q).hasMine = true → q ∈ availablePositions w h sz)))
    (mineStep picks)
    (List.range (min m ((availablePositions w h sz).length : Int)).toNat)
    (createEmptyBoard w h, availablePositions w h sz, [])
    (by
      refine ⟨wellFormed_createEmptyBoard w h, rfl, rfl, fun q hq => hq, ?_⟩
      intro q hq
      rw [getCell_createEmptyBoard w h q hq]
      exact ⟨rfl, fun hc => absurd hc Bool.false_ne_true⟩)
    (by
      rintro acc i _ ⟨hPw, hPd1, hPd2, hPa, hPc⟩
      exact mineStep_preserve picks w h sz acc i hPw hPd1 hPd2 hPa hPc)
  obtain ⟨hFw, hFd1, hFd2, _, hFc⟩ := hfold
  unfold createBoardWithMines
  dsimp only
  have hcalc := @calculateAdjacentMines_spec
    { ((List.range (min m ((availablePositions w h sz).length : Int)).toNat).foldl
        (mineStep picks) (createEmptyBoard w h, availablePositions w h sz, [])).1 with
      mineCount := (((List.range
        (min m ((availablePositions w h sz).length : Int)).toNat).foldl
        (mineStep picks)
        (createEmptyBoard w h, availablePositions w h sz, [])).2.2.length : Int) } hFw
  obtain ⟨hCw, hCf, hCpt, hCcc⟩ := hcalc
  refine ⟨hCw, by rw [hCf.1]; exact hFd1, by rw [hCf.2.1]; exact hFd2, ?_, hCcc⟩
  intro q hq
  have hq1 : inBounds _ q := (inBounds_congr hCf.1 hCf.2.1 q).mp hq
  obtain ⟨hst, hmn⟩ := hFc q hq1
  obtain ⟨hpm, hps⟩ := hCpt q hq1
  refine ⟨by rw [hps]; exact hst, fun hqm => ?_⟩
  rw [hpm] at hqm
  exact hmn hqm

theorem placeMines_spec (board : Board) (m : Int) (sz : Option Pos)
    (shuffled : List Pos) (hw : WellFormed board)
    (hbd : ∀ q ∈ shuffled, inBounds board q) :
    WellFormed (placeMines board m sz shuffled) ∧
    (placeMines board m sz shuffled).width = board.width ∧
    (placeMines board m sz shuffled).height = board.height ∧
    (∀ q, inBounds board q →
      (getCell (placeMines board m sz shuffled) q).state = (getCell board q).state ∧
      ((getCell (placeMines board m sz shuffled) q).hasMine = true →
        (getCell board q).hasMine = true ∨ q ∈ shuffled)) ∧
    ClueCorrect (placeMines board m sz shuffled) := by
  have hbd' : ∀ q ∈ shuffled.take (min m
      ((availablePositions board.width board.height sz).length : Int)).toNat,
      inBounds board q := fun q hq => hbd q (List.take_subset _ _ hq)
  have hfold := foldl_preserve
    (fun acc : Board =>
      WellFormed acc ∧ acc.width = board.width ∧ acc.height = board.height ∧
      (∀ q, inBounds board q →
        (getCell acc q).state = (getCell board q).state ∧
        ((getCell acc q).hasMine = true →
          (getCell board q).hasMine = true ∨ q ∈ shuffled)))
    setMineAt
    (shuffled.take (min m
      ((availablePositions board.width board.height sz).length : Int)).toNat)
    { board with mineCount := m }
    ⟨hw, rfl, rfl, fun q _ => ⟨rfl, fun hc => Or.inl hc⟩⟩
    (by
      rintro acc x hx ⟨hPw, hPd1, hPd2, hPc⟩
      have hxin : inBounds acc x := by
        have := hbd' x hx
        exact (inBounds_congr hPd1 hPd2 x).mpr this
      unfold setMineAt
      refine ⟨wellFormed_setCell x _ hPw hxin, by simpa using hPd1,
        by simpa using hPd2, ?_⟩
      intro q hq
      have hq' : inBounds acc q := (inBounds_congr hPd1 hPd2 q).mpr hq
      rw [getCell_setCell x q _ hPw hxin hq']
      by_cases hqx : q = x
      · rw [if_pos hqx, hqx]
        refine ⟨?_, fun _ => Or.inr (List.take_subset _ _ hx)⟩
        show (getCell acc x).state = (getCell board x).state
        exact (hPc x (hbd' x hx)).1
      · rw [if_neg hqx]
        exact hPc q hq)
  obtain ⟨hFw, hFd1, hFd2, hFc⟩ := hfold
  unfold placeMines
  dsimp only
  have hcalc := @calculateAdjacentMines_spec
    ((shuffled.take (min m
      ((availablePositions board.width board.height sz).length : Int)).toNat).foldl
      setMineAt { board with mineCount := m }) hFw
  obtain ⟨hCw, hCf, hCpt, hCcc⟩ := hcalc
  refine ⟨hCw, by rw [hCf.1]; exact hFd1, by rw [hCf.2.1]; exact hFd2, ?_, hCcc⟩
  intro q hq
  have hq1 := (inBounds_congr hFd1 hFd2 q).mpr hq
  obtain ⟨hst, hmn⟩ := hFc q hq
  obtain ⟨hpm, hps⟩ := hCpt q hq1
  refine ⟨by rw [hps]; exact hst, fun hqm => ?_⟩
  rw [hpm] at hqm
  exact hmn hqm

theorem generateBoardAux_spec (w h : Nat) (m : Int) (sz : Option Pos)
    (picksFor : Nat → Nat → Nat) (shuffled : List Pos)
    (hperm : shuffled.Perm (availablePositions w h sz)) :
    ∀ n : Nat,
      WellFormed (generateBoardAux w h m sz picksFor shuffled n) ∧
      (generateBoardAux w h m sz picksFor shuffled n).width = w ∧
      (generateBoardAux w h m sz picksFor shuffled n).height = h ∧
      (∀ q, inBounds (generateBoardAux w h m sz picksFor shuffled n) q →
        (getCell (generateBoardAux w h m sz picksFor shuffled n) q).state = .hidden ∧
        ((getCell (generateBoardAux w h m sz picksFor shuffled n) q).hasMine = true →
          q ∈ availablePositions w h sz)) ∧
      ClueCorrect (generateBoardAux w h m sz picksFor shuffled n) := by
  intro n
  induction n with
  | zero =>
    rw [show generateBoardAux w h m sz picksFor shuffled 0 =
      placeMines (createEmptyBoard w h) m sz shuffled from rfl]
    have hbd : ∀ q ∈ shuffled, inBounds (createEmptyBoard w h) q := by
      intro q hq
      have hav : q ∈ availablePositions w h sz := hperm.mem_iff.mp hq
      obtain ⟨⟨ha, hb', hc, hd⟩, _⟩ := of_mem_availablePositions hav
      exact ⟨ha, hb', hc, hd⟩
    obtain ⟨h1, h2, h3, h4, h5⟩ := placeMines_spec (createEmptyBoard w h) m sz shuffled
      (wellFormed_createEmptyBoard w h) hbd
    refine ⟨h1, h2, h3, ?_, h5⟩
    intro q hq
    have hqe : inBounds (createEmptyBoard w h) q := (inBounds_congr h2 h3 q).mp hq
    obtain ⟨hst, hmn⟩ := h4 q hqe
    constructor
    · rw [hst, getCell_createEmptyBoard w h q hqe]
    · intro hqm
      rcases hmn hqm with hqm' | hqm'
      · rw [getCell_createEmptyBoard w h q hqe] at hqm'
        exact absurd hqm' Bool.false_ne_true
      · exact hperm.mem_iff.mp hqm'
  | succ n ih =>
    rw [show generateBoardAux w h m sz picksFor shuffled (n + 1) =
      (if validateSolvability (createBoardWithMines w h m sz (picksFor n))
        then optimizeMineDistribution (createBoardWithMines w h m sz (picksFor n))
        else generateBoardAux w h m sz picksFor shuffled n) from rfl]
    split
    · exact createBoardWithMines_spec w h m sz (picksFor n)
    · exact ih

/-- Claim C6: whenever `generateBoard` is called with a safe zone, no
cell within Chebyshev distance 1 of the safe zone ends up with a mine —
this covers both the anti-clustering placement path (mines drawn from
the pool that excludes the zone) and the exhausted-attempts fallback
path (mines drawn from a shuffle of the same pool). -/
theorem first_click_safety (w h : Nat) (m : Int) (sz : Pos)
    (picksFor : Nat → Nat → Nat) (shuffled : List Pos)
    (hperm : shuffled.Perm (availablePositions w h (some sz)))
    (q : Pos) (hq : inBounds (generateBoard w h m (some sz) picksFor shuffled) q)
    (hcheb : (q.row - sz.row).natAbs ≤ 1 ∧ (q.col - sz.col).natAbs ≤ 1) :
    (getCell (generateBoard w h m (some sz) picksFor shuffled) q).hasMine = false := by
  obtain ⟨_, _, _, hc, _⟩ := generateBoardAux_spec w h m (some sz) picksFor shuffled hperm 50
  cases hv : (getCell (generateBoard w h m (some sz) picksFor shuffled) q).hasMine with
  | false => rfl
  | true =>
    have hav := (hc q hq).2 hv
    obtain ⟨_, hzone⟩ := of_mem_availablePositions hav
    exact absurd hcheb (hzone sz rfl)

/-- Claim C6 witness: a concrete 4×4 generation with safe zone (0,0);
the neighbour (1,1) has no mine. -/
theorem first_click_safety_witness :
    inBounds (generateBoard 4 4 1 (some ⟨0, 0⟩) (fun _ _ => 0)
      (availablePositions 4 4 (some ⟨0, 0⟩))) ⟨1, 1⟩ ∧
    ((1 : Int) - 0).natAbs ≤ 1 ∧
    (getCell (generateBoard 4 4 1 (some ⟨0, 0⟩) (fun _ _ => 0)
      (availablePositions 4 4 (some ⟨0, 0⟩))) ⟨1, 1⟩).hasMine = false :=
  ⟨by decide, by decide,
   first_click_safety 4 4 1 ⟨0, 0⟩ (fun _ _ => 0) (availablePositions 4 4 (some ⟨0, 0⟩))
     (List.Perm.refl _) ⟨1, 1⟩ (by decide) ⟨by decide, by decide⟩⟩

/-! ## Claim C3 — flood-fill characterisation -/

theorem zeroReach_mem_closure {b : Board} {p : Pos} {V : List Pos}
    (hp : p ∈ V)
    (hclosed : ∀ x ∈ V, ∀ q ∈ getAdjacentPositions b x, ZeroCell b q → q ∈ V) :
    ∀ x, ZeroReach b p x → x ∈ V := by
  intro x hx
  induction hx with
  | seed => exact hp
  | step x' q hx' hadj hhid hmine hzero ih =>
    exact hclosed x' ih q hadj ⟨⟨hhid, hmine⟩, hzero⟩

/-- Claim C3 (amended): for a well-formed board in status `playing`,
revealing an in-bounds zero-clue non-mine cell that is not already
revealed or flagged reveals exactly the flood target: the clicked cell
plus every *hidden* non-mine neighbour of a cell reachable from the
click through chains of hidden zero-clue non-mine cells.  Cells outside
that set — in particular flagged cells, previously revealed cells, and
every cell with a mine — are left exactly as they were, so no mine is
ever auto-revealed; but a flagged cell inside the zero region blocks
propagation (see the counterexample), unlike the original claim's
purely geometric "maximal connected region". -/
theorem floodFill_characterisation (b : Board) (p : Pos)
    (hw : WellFormed b) (hpl : b.gameStatus = .playing) (hin : inBounds b p)
    (hst : ¬((getCell b p).state = .revealed ∨ (getCell b p).state = .flagged))
    (hm : (getCell b p).hasMine = false)
    (hz : (getCell b p).adjacentMines = 0) :
    (∀ q, inBounds b q → q ∈ floodTarget b p →
      getCell (revealCell b p) q = { getCell b q with state := .revealed }) ∧
    (∀ q, inBounds b q → q ∉ floodTarget b p →
      getCell (revealCell b p) q = getCell b q) ∧
    (∀ q, inBounds b q → (getCell b q).hasMine = true →
      getCell (revealCell b p) q = getCell b q) := by
  have h1 : ¬(p.row < 0 ∨ p.row ≥ (b.height : Int) ∨ p.col < 0 ∨
      p.col ≥ (b.width : Int)) := not_oob_iff.mpr hin
  have heq := revealCell_safe_eq h1 hst hm
  dsimp only at heq
  rw [if_pos hz] at heq
  -- initial extension: just the seed is revealed
  have hwfc : WellFormed { b with firstClick := false } := hw
  have hext0 : Ext b (revealOne { b with firstClick := false } p)
      (ExploredSet b p []) := by
    refine ⟨wellFormed_revealOne p hwfc hin, ⟨rfl, rfl, rfl, rfl, rfl⟩, ?_, ?_, ?_⟩
    · intro q hq hqE
      rcases hqE with hqp | ⟨_, x, hx, _⟩
      · rw [show getCell (revealOne { b with firstClick := false } p) q = _ from
          getCell_revealOne p q hwfc hin hq, if_pos hqp, hqp]
        rfl
      · exact absurd hx (by simp)
    · intro q hq hqE
      rw [show getCell (revealOne { b with firstClick := false } p) q = _ from
        getCell_revealOne p q hwfc hin hq,
        if_neg (fun hc : q = p => hqE (Or.inl hc))]
      rfl
    · intro q hq
      rcases hq with hqp | ⟨_, x, hx, _⟩
      · rw [hqp]; exact hin
      · exact absurd hx (by simp)
  obtain ⟨V', hext, hreach, _, hpV, hclosed⟩ :=
    floodLoop_spec (10 * (b.width * b.height) + 1)
      (revealOne { b with firstClick := false } p) [p] [] hext0
      (by simp) (by intro x hx; rcases List.mem_singleton.mp hx with rfl; exact ZeroReach.seed)
      (by simp) (Or.inr (List.mem_singleton.mpr rfl))
      (by simp) (by intro x hx; rcases List.mem_singleton.mp hx with rfl; exact hin)
      List.nodup_nil (by simp)
  -- the explored set is exactly the flood target
  have htarget : ∀ q, q ∈ ExploredSet b p V' ↔ q ∈ floodTarget b p := by
    intro q
    constructor
    · rintro (rfl | ⟨hhid, x, hx, hadj⟩)
      · exact Or.inl rfl
      · exact Or.inr ⟨hhid, x, hreach x hx, hadj⟩
    · rintro (rfl | ⟨hhid, x, hx, hadj⟩)
      · exact Or.inl rfl
      · exact Or.inr ⟨hhid, x, zeroReach_mem_closure hpV hclosed x hx, hadj⟩
  have hext' := ext_of_iff htarget hext
  obtain ⟨hwf', hframe', hinE, houtE, hbdE⟩ := hext'
  -- transfer through the win-check wrapper, whose cells are untouched
  have hcells : ∀ q, getCell (revealCell b p) q =
      getCell (floodLoop (10 * (b.width * b.height) + 1)
        (revealOne { b with firstClick := false } p) [p] []) q := by
    intro q
    rw [heq]
    split
    · rfl
    · rfl
  refine ⟨?_, ?_, ?_⟩
  · intro q hq hqT
    rw [hcells q]
    exact hinE q hq hqT
  · intro q hq hqT
    rw [hcells q]
    exact houtE q hq hqT
  · intro q hq hqm
    rw [hcells q]
    refine houtE q hq ?_
    rintro (rfl | ⟨⟨_, hmm⟩, _⟩)
    · rw [hm] at hqm; exact absurd hqm (by decide)
    · rw [hmm] at hqm; exact absurd hqm (by decide)

/-- Claim C3 counterexample: on a playing 1×5 board with its mine at
(0,4) and a player flag on the zero-clue cell (0,1), revealing (0,0)
leaves (0,2) hidden even though (0,2) lies in the maximal
Chebyshev-connected region of zero-clue non-mine cells containing
(0,0) — the flag blocks the flood fill. -/
theorem floodFill_flag_blocked_cex :
    flagBlockedBoard.gameStatus = GameStatus.playing ∧
    (getCell flagBlockedBoard ⟨0, 0⟩).adjacentMines = 0 ∧
    (getCell flagBlockedBoard ⟨0, 0⟩).hasMine = false ∧
    (getCell flagBlockedBoard ⟨0, 0⟩).state = .hidden ∧
    (getCell flagBlockedBoard ⟨0, 1⟩).adjacentMines = 0 ∧
    (getCell flagBlockedBoard ⟨0, 1⟩).hasMine = false ∧
    (getCell flagBlockedBoard ⟨0, 2⟩).adjacentMines = 0 ∧
    (getCell flagBlockedBoard ⟨0, 2⟩).hasMine = false ∧
    (⟨0, 1⟩ : Pos) ∈ getAdjacentPositions flagBlockedBoard ⟨0, 0⟩ ∧
    (⟨0, 2⟩ : Pos) ∈ getAdjacentPositions flagBlockedBoard ⟨0, 1⟩ ∧
    (getCell (revealCell flagBlockedBoard ⟨0, 0⟩) ⟨0, 2⟩).state = CellState.hidden := by
  decide

/-- Claim C3 witness: on the open 1×3 board, revealing the zero corner
reveals its neighbour (a flood-target member) and leaves the mine cell
untouched. -/
theorem floodFill_characterisation_witness :
    (WellFormed openRowBoard ∧ openRowBoard.gameStatus = .playing ∧
      inBounds openRowBoard ⟨0, 0⟩ ∧
      ¬((getCell openRowBoard ⟨0, 0⟩).state = .revealed ∨
        (getCell openRowBoard ⟨0, 0⟩).state = .flagged) ∧
      (getCell openRowBoard ⟨0, 0⟩).hasMine = false ∧
      (getCell openRowBoard ⟨0, 0⟩).adjacentMines = 0) ∧
    getCell (revealCell openRowBoard ⟨0, 0⟩) ⟨0, 1⟩ =
      { getCell openRowBoard ⟨0, 1⟩ with state := .revealed } ∧
    getCell (revealCell openRowBoard ⟨0, 0⟩) ⟨0, 2⟩ = getCell openRowBoard ⟨0, 2⟩ := by
  have hyps : WellFormed openRowBoard ∧ openRowBoard.gameStatus = .playing ∧
      inBounds openRowBoard ⟨0, 0⟩ ∧
      ¬((getCell openRowBoard ⟨0, 0⟩).state = .revealed ∨
        (getCell openRowBoard ⟨0, 0⟩).state = .flagged) ∧
      (getCell openRowBoard ⟨0, 0⟩).hasMine = false ∧
      (getCell openRowBoard ⟨0, 0⟩).adjacentMines = 0 :=
    ⟨⟨by decide, by decide⟩, by decide, by decide, by decide, by decide, by decide⟩
  obtain ⟨hA, hB, hC, hD, hE, hF⟩ := hyps
  have hmain := floodFill_characterisation openRowBoard ⟨0, 0⟩ hA hB hC hD hE hF
  refine ⟨⟨hA, hB, hC, hD, hE, hF⟩, ?_, ?_⟩
  · exact hmain.1 ⟨0, 1⟩ (by decide)
      (Or.inr ⟨⟨by decide, by decide⟩, ⟨0, 0⟩, ZeroReach.seed, by decide⟩)
  · exact hmain.2.2 ⟨0, 2⟩ (by decide) (by decide)

/-! ## Invariant preservation along reachable boards -/

theorem getCell_setStatus (b : Board) (s : GameStatus) (q : Pos) :
    getCell { b with gameStatus := s } q = getCell b q := rfl

theorem clueCorrect_pointwise {b b' : Board} (hww : b'.width = b.width)
    (hhh : b'.height = b.height)
    (hmine : ∀ q, inBounds b q → (getCell b' q).hasMine = (getCell b q).hasMine)
    (hadj : ∀ q, inBounds b q → (getCell b' q).adjacentMines = (getCell b q).adjacentMines)
    (hc : ClueCorrect b) : ClueCorrect b' := by
  intro q hq hqm
  have hqb : inBounds b q := (inBounds_congr hww hhh q).mp hq
  rw [hadj q hqb, countAdjacentMines_congr hww hhh hmine q]
  exact hc q hqb (by rw [← hmine q hqb]; exact hqm)

/-- The safe branch of `revealCell` only switches some set of cells to
`revealed`, each of them either the clicked cell or previously hidden
and mine-free; everything else is untouched. -/
theorem revealCell_safe_ext {b : Board} {p : Pos}
    (hw : WellFormed b) (hin : inBounds b p)
    (hst : ¬((getCell b p).state = .revealed ∨ (getCell b p).state = .flagged))
    (hm : (getCell b p).hasMine = false) :
    ∃ E : Set Pos,
      WellFormed (revealCell b p) ∧
      (revealCell b p).width = b.width ∧
      (revealCell b p).height = b.height ∧
      (∀ q, inBounds b q → q ∈ E →
        getCell (revealCell b p) q = { getCell b q with state := .revealed }) ∧
      (∀ q, inBounds b q → q ∉ E → getCell (revealCell b p) q = getCell b q) ∧
      (∀ q ∈ E, q = p ∨ Hid b q) := by
  have h1 : ¬(p.row < 0 ∨ p.row ≥ (b.height : Int) ∨ p.col < 0 ∨
      p.col ≥ (b.width : Int)) := not_oob_iff.mpr hin
  have heq := revealCell_safe_eq h1 hst hm
  dsimp only at heq
  have hwfc : WellFormed { b with firstClick := false } := hw
  by_cases hz : (getCell b p).adjacentMines = 0
  · rw [if_pos hz] at heq
    have hext0 : Ext b (revealOne { b with firstClick := false } p)
        (ExploredSet b p []) := by
      refine ⟨wellFormed_revealOne p hwfc hin, ⟨rfl, rfl, rfl, rfl, rfl⟩, ?_, ?_, ?_⟩
      · intro q hq hqE
        rcases hqE with hqp | ⟨_, x, hx, _⟩
        · rw [show getCell (revealOne { b with firstClick := false } p) q = _ from
            getCell_revealOne p q hwfc hin hq, if_pos hqp, hqp]
          rfl
        · exact absurd hx (by simp)
      · intro q hq hqE
        rw [show getCell (revealOne { b with firstClick := false } p) q = _ from
          getCell_revealOne p q hwfc hin hq,
          if_neg (fun hc : q = p => hqE (Or.inl hc))]
        rfl
      · intro q hq
        rcases hq with hqp | ⟨_, x, hx, _⟩
        · rw [hqp]; exact hin
        · exact absurd hx (by simp)
    obtain ⟨V', hext, hreach, _, hpV, hclosed⟩ :=
      floodLoop_spec (10 * (b.width * b.height) + 1)
        (revealOne { b with firstClick := false } p) [p] [] hext0
        (by simp) (by intro x hx; rcases List.mem_singleton.mp hx with rfl; exact ZeroReach.seed)
        (by simp) (Or.inr (List.mem_singleton.mpr rfl))
        (by simp) (by intro x hx; rcases List.mem_singleton.mp hx with rfl; exact hin)
        List.nodup_nil (by simp)
    obtain ⟨hwf', hframe', hinE, houtE, hbdE⟩ := hext
    have hcells : ∀ q, getCell (revealCell b p) q =
        getCell (floodLoop (10 * (b.width * b.height) + 1)
          (revealOne { b with firstClick := false } p) [p] []) q := by
      intro q
      rw [heq]
      split
      · rfl
      · rfl
    have hWF : WellFormed (revealCell b p) := by
      rw [heq]
      split
      · exact hwf'
      · exact hwf'
    have hWw : (revealCell b p).width = b.width := by
      rw [heq]
      split
      · exact hframe'.1
      · exact hframe'.1
    have hHh : (revealCell b p).height = b.height := by
      rw [heq]
      split
      · exact hframe'.2.1
      · exact hframe'.2.1
    refine ⟨ExploredSet b p V', hWF, hWw, hHh, ?_, ?_, ?_⟩
    · intro q hq hqE
      rw [hcells q]
      exact hinE q hq hqE
    · intro q hq hqE
      rw [hcells q]
      exact houtE q hq hqE
    · intro q hq
      rcases hq with rfl | ⟨hhid, _, _, _⟩
      · exact Or.inl rfl
      · exact Or.inr hhid
  · rw [if_neg hz] at heq
    have hW2 : WellFormed (revealOne { b with firstClick := false } p) :=
      wellFormed_revealOne p hwfc hin
    have hcells : ∀ q, getCell (revealCell b p) q =
        getCell (revealOne { b with firstClick := false } p) q := by
      intro q
      rw [heq]
      split
      · rfl
      · rfl
    have hWF : WellFormed (revealCell b p) := by
      rw [heq]
      split
      · exact hW2
      · exact hW2
    have hWw : (revealCell b p).width = b.width := by
      rw [heq]
      split
      · rfl
      · rfl
    have hHh : (revealCell b p).height = b.height := by
      rw [heq]
      split
      · rfl
      · rfl
    refine ⟨{p}, hWF, hWw, hHh, ?_, ?_, ?_⟩
    · intro q hq hqE
      have hqp : q = p := hqE
      subst hqp
      rw [hcells q, show getCell (revealOne { b with firstClick := false } q) q = _ from
        getCell_revealOne q q hwfc hin hin, if_pos rfl]
      rfl
    · intro q hq hqE
      rw [hcells q, show getCell (revealOne { b with firstClick := false } p) q = _ from
        getCell_revealOne p q hwfc hin hq,
        if_neg (fun hc : q = p => hqE hc)]
      rfl
    · intro q hq
      exact Or.inl hq

/-- Updating one cell's state to a non-`revealed` value (and adjusting
`flaggedCount`) preserves the structural invariant — the common shape of
both `toggleFlag` branches. -/
theorem invariant_setState {b : Board} (hI : Invariant b) (p : Pos) (hin : inBounds b p)
    (s : CellState) (hs : s ≠ CellState.revealed) (fc : Int) :
    Invariant { setCell b p { getCell b p with state := s } with flaggedCount := fc } := by
  obtain ⟨hw, hc, hr⟩ := hI
  have hW1 : WellFormed (setCell b p { getCell b p with state := s }) :=
    wellFormed_setCell p _ hw hin
  have hcell : ∀ q, inBounds b q →
      getCell { setCell b p { getCell b p with state := s } with flaggedCount := fc } q =
        (if q = p then { getCell b p with state := s } else getCell b q) := by
    intro q hq
    exact getCell_setCell p q _ hw hin hq
  refine ⟨hW1, ?_, ?_⟩
  · refine clueCorrect_pointwise ?_ ?_ ?_ ?_ hc
    · rfl
    · rfl
    · intro q hq
      rw [hcell q hq]
      by_cases hqp : q = p
      · subst hqp
        rw [if_pos rfl]
      · rw [if_neg hqp]
    · intro q hq
      rw [hcell q hq]
      by_cases hqp : q = p
      · subst hqp
        rw [if_pos rfl]
      · rw [if_neg hqp]
  · intro q hq hqs
    have hqb : inBounds b q := hq
    rw [hcell q hqb] at hqs ⊢
    by_cases hqp : q = p
    · subst hqp
      rw [if_pos rfl] at hqs
      exact absurd hqs hs
    · rw [if_neg hqp] at hqs ⊢
      exact hr q hqb hqs

theorem invariant_toggleFlag {b : Board} (hI : Invariant b) (p : Pos) :
    Invariant (toggleFlag b p) := by
  by_cases hoob : p.row < 0 ∨ p.row ≥ (b.height : Int) ∨ p.col < 0 ∨ p.col ≥ (b.width : Int)
  · rw [toggleFlag_oob hoob]
    exact hI
  by_cases hst : (getCell b p).state = .revealed ∨ (getCell b p).state = .mine ∨
      (getCell b p).state = .exploded
  · rw [toggleFlag_noop hst]
    exact hI
  by_cases hfl : (getCell b p).state = .flagged
  · rw [toggleFlag_flagged_eq hoob hfl]
    exact invariant_setState hI p (not_oob_iff.mp hoob) .hidden (by decide) _
  · have hhid : (getCell b p).state = .hidden := by
      cases hsv : (getCell b p).state with
      | hidden => rfl
      | revealed => exact absurd (Or.inl hsv) hst
      | flagged => exact absurd hsv hfl
      | mine => exact absurd (Or.inr (Or.inl hsv)) hst
      | exploded => exact absurd (Or.inr (Or.inr hsv)) hst
    rw [toggleFlag_hidden_eq hoob hhid]
    exact invariant_setState hI p (not_oob_iff.mp hoob) .flagged (by decide) _

theorem invariant_revealCell {b : Board} (hI : Invariant b) (p : Pos) :
    Invariant (revealCell b p) := by
  obtain ⟨hw, hc, hr⟩ := hI
  by_cases hoob : p.row < 0 ∨ p.row ≥ (b.height : Int) ∨ p.col < 0 ∨ p.col ≥ (b.width : Int)
  · rw [revealCell_oob hoob]
    exact ⟨hw, hc, hr⟩
  by_cases hst : (getCell b p).state = .revealed ∨ (getCell b p).state = .flagged
  · rw [revealCell_noop hoob hst]
    exact ⟨hw, hc, hr⟩
  have hin : inBounds b p := not_oob_iff.mp hoob
  cases hmv : (getCell b p).hasMine with
  | true =>
    have hmb := revealCell_mine_eq hoob hst hmv
    have hwfc : WellFormed { b with firstClick := false } := hw
    have hW1 : WellFormed (setCell { b with firstClick := false } p
        { getCell b p with state := CellState.exploded }) :=
      wellFormed_setCell p _ hwfc hin
    have hW2 : WellFormed { setCell { b with firstClick := false } p
        { getCell b p with state := CellState.exploded } with
          gameStatus := GameStatus.lost } := hW1
    have hgB2 : ∀ q : Pos, inBounds b q →
        getCell { setCell { b with firstClick := false } p
            { getCell b p with state := CellState.exploded } with
              gameStatus := GameStatus.lost } q =
          (if q = p then { getCell b p with state := CellState.exploded }
           else getCell b q) := by
      intro q hq
      refine (getCell_setStatus _ _ q).trans ?_
      rw [getCell_setCell p q _ hwfc hin hq]
      split
      · rfl
      · rfl
    have hcell : ∀ q, inBounds b q →
        getCell (revealCell b p) q =
          (if (if q = p then { getCell b p with state := CellState.exploded }
                else getCell b q).hasMine ∧
              (if q = p then { getCell b p with state := CellState.exploded }
                else getCell b q).state ≠ CellState.exploded then
            { (if q = p then { getCell b p with state := CellState.exploded }
                else getCell b q) with state := CellState.mine }
          else (if q = p then { getCell b p with state := CellState.exploded }
                else getCell b q)) := by
      intro q hq
      rw [hmb, getCell_mapCells _ q hW2 hq, hgB2 q hq]
    have hWw : (revealCell b p).width = b.width := by
      rw [hmb]
      rfl
    have hHh : (revealCell b p).height = b.height := by
      rw [hmb]
      rfl
    refine ⟨?_, ?_, ?_⟩
    · rw [hmb]
      exact wellFormed_mapCells _ hW2
    · refine clueCorrect_pointwise hWw hHh ?_ ?_ hc
      · intro q hq
        rw [hcell q hq]
        by_cases hqp : q = p
        · subst hqp
          rw [if_pos rfl]
          split
          · rfl
          · rfl
        · rw [if_neg hqp]
          split
          · rfl
          · rfl
      · intro q hq
        rw [hcell q hq]
        by_cases hqp : q = p
        · subst hqp
          rw [if_pos rfl]
          split
          · rfl
          · rfl
        · rw [if_neg hqp]
          split
          · rfl
          · rfl
    · intro q hq hqs
      have hqb : inBounds b q := (inBounds_congr hWw hHh q).mp hq
      rw [hcell q hqb] at hqs ⊢
      by_cases hqp : q = p
      · subst hqp
        rw [if_pos rfl] at hqs ⊢
        split at hqs
        · simp at hqs
        · simp at hqs
      · rw [if_neg hqp] at hqs ⊢
        split at hqs
        · simp at hqs
        · have hmf := hr q hqb hqs
          split
          · exact hmf
          · exact hmf
  | false =>
    obtain ⟨E, hWF, hWw, hHh, hinE, houtE, hEp⟩ := revealCell_safe_ext hw hin hst hmv
    refine ⟨hWF, ?_, ?_⟩
    · refine clueCorrect_pointwise hWw hHh ?_ ?_ hc
      · intro q hq
        by_cases hqE : q ∈ E
        · rw [hinE q hq hqE]
        · rw [houtE q hq hqE]
      · intro q hq
        by_cases hqE : q ∈ E
        · rw [hinE q hq hqE]
        · rw [houtE q hq hqE]
    · intro q hq hqs
      have hqb : inBounds b q := (inBounds_congr hWw hHh q).mp hq
      by_cases hqE : q ∈ E
      · rw [hinE q hqb hqE]
        show (getCell b q).hasMine = false
        rcases hEp q hqE with rfl | ⟨_, hmf⟩
        · exact hmv
        · exact hmf
      · rw [houtE q hqb hqE] at hqs ⊢
        exact hr q hqb hqs

/-- Every reachable board satisfies the structural invariant. -/
theorem reachable_invariant {b : Board} (h : Reachable b) : Invariant b := by
  induction h with
  | generated w ht m sz picksFor shuffled hperm =>
    obtain ⟨h1, h2, h3, h4, h5⟩ := generateBoardAux_spec w ht m sz picksFor shuffled hperm 50
    refine ⟨h1, h5, ?_⟩
    intro q hq hqs
    have hst' : (getCell (generateBoard w ht m sz picksFor shuffled) q).state =
        CellState.hidden := (h4 q hq).1
    rw [hst'] at hqs
    cases hqs
  | reveal b p _ ih => exact invariant_revealCell ih p
  | flag b p _ ih => exact invariant_toggleFlag ih p

/-! ## findSafeMoves membership -/

theorem mem_removeDuplicatePositions_aux (l : List Pos) :
    ∀ (seen : List Pos) (q : Pos),
      q ∈ l.foldl (fun seen pos => if pos ∈ seen then seen else seen ++ [pos]) seen ↔
        q ∈ seen ∨ q ∈ l := by
  induction l with
  | nil =>
    intro seen q
    simp
  | cons a as ih =>
    intro seen q
    rw [List.foldl_cons, ih]
    by_cases ha : a ∈ seen
    · rw [if_pos ha]
      constructor
      · rintro (h | h)
        · exact Or.inl h
        · exact Or.inr (List.mem_cons_of_mem _ h)
      · rintro (h | h)
        · exact Or.inl h
        · rcases List.mem_cons.mp h with rfl | h
          · exact Or.inl ha
          · exact Or.inr h
    · rw [if_neg ha]
      constructor
      · rintro (h | h)
        · rcases List.mem_append.mp h with h | h
          · exact Or.inl h
          · rcases List.mem_singleton.mp h with rfl
            exact Or.inr (List.mem_cons_self _ _)
        · exact Or.inr (List.mem_cons_of_mem _ h)
      · rintro (h | h)
        · exact Or.inl (List.mem_append.mpr (Or.inl h))
        · rcases List.mem_cons.mp h with rfl | h
          · exact Or.inl (List.mem_append.mpr (Or.inr (List.mem_singleton.mpr rfl)))
          · exact Or.inr h

theorem mem_removeDuplicatePositions {l : List Pos} {q : Pos} :
    q ∈ removeDuplicatePositions l ↔ q ∈ l := by
  unfold removeDuplicatePositions
  rw [mem_removeDuplicatePositions_aux l [] q]
  simp

/-- Any position reported safe comes from some revealed positive-clue
cell all of whose clue's worth of neighbours are flagged, and is itself
a hidden neighbour of that cell. -/
theorem of_mem_findSafeMoves {b : Board} {q : Pos}
    (hq : q ∈ findSafeMoves b) :
    ∃ x : Pos, inBounds b x ∧ (getCell b x).state = .revealed ∧
      (getCell b x).adjacentMines > 0 ∧
      (((((getAdjacentPositions b x).map (getCell b)).filter
          fun c => c.state = .flagged).length : Int) = (getCell b x).adjacentMines) ∧
      q ∈ getAdjacentPositions b x ∧ (getCell b q).state = .hidden := by
  have hq1 : q ∈ ((List.range b.height).flatMap fun (row : Nat) =>
      (List.range b.width).flatMap fun (col : Nat) =>
        let cell := getCell b ⟨(row : Int), (col : Int)⟩
        if cell.state = .revealed ∧ cell.adjacentMines > 0 then
          let adjacentPositions := getAdjacentPositions b ⟨(row : Int), (col : Int)⟩
          let adjacentCells := adjacentPositions.map (getCell b)
          let flaggedCount := (adjacentCells.filter fun c => c.state = .flagged).length
          let hiddenCells := adjacentPositions.filter fun pos =>
            (getCell b pos).state = .hidden
          if (flaggedCount : Int) = cell.adjacentMines ∧ hiddenCells.length > 0 then
            hiddenCells
          else []
        else []) :=
    mem_removeDuplicatePositions.mp hq
  simp only [List.mem_flatMap, List.mem_range] at hq1
  obtain ⟨row, hrow, col, hcol, hq1⟩ := hq1
  by_cases h1 : (getCell b ⟨(row : Int), (col : Int)⟩).state = CellState.revealed ∧
      (getCell b ⟨(row : Int), (col : Int)⟩).adjacentMines > 0
  · rw [if_pos h1] at hq1
    by_cases h2 : (((((getAdjacentPositions b ⟨(row : Int), (col : Int)⟩).map
          (getCell b)).filter fun c => c.state = .flagged).length : Int) =
          (getCell b ⟨(row : Int), (col : Int)⟩).adjacentMines) ∧
        ((getAdjacentPositions b ⟨(row : Int), (col : Int)⟩).filter fun pos =>
          (getCell b pos).state = .hidden).length > 0
    · rw [if_pos h2] at hq1
      rw [List.mem_filter] at hq1
      have hr0 : (0 : Int) ≤ (row : Int) := Int.ofNat_nonneg row
      have hr1 : ((row : Nat) : Int) < (b.height : Int) := by exact_mod_cast hrow
      have hc0 : (0 : Int) ≤ (col : Int) := Int.ofNat_nonneg col
      have hc1 : ((col : Nat) : Int) < (b.width : Int) := by exact_mod_cast hcol
      exact ⟨⟨(row : Int), (col : Int)⟩, ⟨hr0, hr1, hc0, hc1⟩, h1.1, h1.2, h2.1,
        hq1.1, of_decide_eq_true hq1.2⟩
    · rw [if_neg h2] at hq1
      simp at hq1
  · rw [if_neg h1] at hq1
    simp at hq1

/-! ## Claim C4 — win detection -/

theorem winCheck_iff (x : Board) (T : Int) (hx : x.gameStatus = .playing) :
    ((if x.revealedCount = T then { x with gameStatus := GameStatus.won } else x).gameStatus =
        .won ↔
      (if x.revealedCount = T then { x with gameStatus := GameStatus.won } else x).revealedCount =
        T) := by
  by_cases h : x.revealedCount = T
  · rw [if_pos h]
    constructor
    · intro _; exact h
    · intro _; rfl
  · rw [if_neg h, hx]
    constructor
    · intro hh; exact absurd hh (by decide)
    · intro hh; exact absurd hh h

/-- Claim C4 (amended): for a board in status `playing`, the board
returned by `revealCell` has status `won` iff the call actually revealed
a cell (in-bounds, not already revealed or flagged, no mine) and the
resulting `revealedCount` equals `width*height - mineCount`.  In
particular the status never becomes `won` while `revealedCount` differs
from that value; the original claim's unconditional iff fails on no-op
calls (see the counterexample). -/
theorem win_detection (b : Board) (p : Pos) (hpl : b.gameStatus = .playing) :
    ((revealCell b p).gameStatus = .won ↔
      (inBounds b p ∧
        ¬((getCell b p).state = .revealed ∨ (getCell b p).state = .flagged) ∧
        (getCell b p).hasMine = false ∧
        (revealCell b p).revealedCount =
          (b.width : Int) * (b.height : Int) - b.mineCount)) := by
  by_cases h1 : p.row < 0 ∨ p.row ≥ (b.height : Int) ∨ p.col < 0 ∨ p.col ≥ (b.width : Int)
  · rw [revealCell_oob h1, hpl]
    constructor
    · intro h; exact absurd h (by decide)
    · rintro ⟨hin, _⟩
      exact absurd h1 (not_oob_iff.mpr hin)
  · have hin : inBounds b p := not_oob_iff.mp h1
    by_cases h2 : (getCell b p).state = .revealed ∨ (getCell b p).state = .flagged
    · rw [revealCell_noop h1 h2, hpl]
      constructor
      · intro h; exact absurd h (by decide)
      · rintro ⟨_, hst, _⟩; exact absurd h2 hst
    · by_cases h3 : (getCell b p).hasMine = true
      · have hstat : (revealCell b p).gameStatus = .lost := by
          rw [revealCell_mine_eq h1 h2 h3]; rfl
        rw [hstat]
        constructor
        · intro h; exact absurd h (by decide)
        · rintro ⟨_, _, hm, _⟩
          rw [h3] at hm
          exact absurd hm (by decide)
      · have h3' : (getCell b p).hasMine = false := by simpa using h3
        have heq := revealCell_safe_eq h1 h2 h3'
        dsimp only at heq
        by_cases h4 : (getCell b p).adjacentMines = 0
        · rw [if_pos h4] at heq
          rw [heq]
          have hxs : (floodLoop (10 * (b.width * b.height) + 1)
              (revealOne { b with firstClick := false } p) [p] []).gameStatus =
              GameStatus.playing := by
            rw [(sameFrame_floodLoop _ _ _ _).2.2.2.2]; exact hpl
          rw [winCheck_iff _ _ hxs]
          constructor
          · intro h; exact ⟨hin, h2, h3', h⟩
          · rintro ⟨_, _, _, h⟩; exact h
        · rw [if_neg h4] at heq
          rw [heq]
          have hxs : (revealOne { b with firstClick := false } p).gameStatus =
              GameStatus.playing := hpl
          rw [winCheck_iff _ _ hxs]
          constructor
          · intro h; exact ⟨hin, h2, h3', h⟩
          · rintro ⟨_, _, _, h⟩; exact h

/-- Claim C4 counterexample: a playing 1×1 mine-free board whose cell is
already revealed.  `revealCell` is a no-op, so `revealedCount` equals
`width*height - mineCount` yet the status stays `playing` — the claimed
unconditional "won iff revealedCount = width*height - mineCount" is
false. -/
theorem win_detection_cex :
    tinyRevealedBoard.gameStatus = GameStatus.playing ∧
      (revealCell tinyRevealedBoard ⟨0, 0⟩).revealedCount =
        (tinyRevealedBoard.width : Int) * (tinyRevealedBoard.height : Int) -
          tinyRevealedBoard.mineCount ∧
      (revealCell tinyRevealedBoard ⟨0, 0⟩).gameStatus ≠ GameStatus.won := by
  refine ⟨rfl, by decide, by decide⟩

/-- Claim C4 witness: on the 1×3 board with one mine, revealing the
zero-clue corner cascades to reveal both safe cells and wins. -/
theorem win_detection_witness :
    openRowBoard.gameStatus = GameStatus.playing ∧
    ((revealCell openRowBoard ⟨0, 0⟩).gameStatus = .won ↔
      (inBounds openRowBoard ⟨0, 0⟩ ∧
        ¬((getCell openRowBoard ⟨0, 0⟩).state = .revealed ∨
          (getCell openRowBoard ⟨0, 0⟩).state = .flagged) ∧
        (getCell openRowBoard ⟨0, 0⟩).hasMine = false ∧
        (revealCell openRowBoard ⟨0, 0⟩).revealedCount =
          (openRowBoard.width : Int) * (openRowBoard.height : Int) -
            openRowBoard.mineCount)) :=
  ⟨by decide, win_detection openRowBoard ⟨0, 0⟩ (by decide)⟩

/-! ## Claim C5 — loss detection -/

/-- Claim C5 (amended): for a well-formed board in status `playing`,
revealing an in-bounds mine cell that is not already revealed or flagged
yields status `lost`, the target cell `exploded`, and every other mine
in state `mine` (unless it was already `exploded`, which it keeps).  The
original claim fails for flagged mines, which `revealCell` refuses to
reveal (see the counterexample). -/
theorem loss_detection (b : Board) (p : Pos)
    (hw : WellFormed b) (hpl : b.gameStatus = .playing) (hin : inBounds b p)
    (hst : ¬((getCell b p).state = .revealed ∨ (getCell b p).state = .flagged))
    (hm : (getCell b p).hasMine = true) :
    (revealCell b p).gameStatus = .lost ∧
    (getCell (revealCell b p) p).state = .exploded ∧
    (∀ q, inBounds b q → q ≠ p → (getCell b q).hasMine = true →
      (getCell (revealCell b p) q).state =
        (if (getCell b q).state = .exploded then .exploded else .mine)) := by
  have h1 : ¬(p.row < 0 ∨ p.row ≥ (b.height : Int) ∨ p.col < 0 ∨ p.col ≥ (b.width : Int)) :=
    not_oob_iff.mpr hin
  have heq := revealCell_mine_eq h1 hst hm
  have hwfc : WellFormed { b with firstClick := false } := hw
  have hwset : WellFormed (setCell { b with firstClick := false } p
      { getCell b p with state := .exploded }) :=
    wellFormed_setCell p _ hwfc hin
  refine ⟨by rw [heq]; rfl, ?_, ?_⟩
  · rw [heq]
    rw [show (getCell (mapCells
        { setCell { b with firstClick := false } p
            { getCell b p with state := .exploded } with gameStatus := GameStatus.lost }
        (fun _ c => if c.hasMine ∧ c.state ≠ .exploded then { c with state := .mine } else c))
        p) = _ from getCell_mapCells _ p hwset hin]
    rw [show getCell { setCell { b with firstClick := false } p
        { getCell b p with state := .exploded } with gameStatus := GameStatus.lost } p = _ from
      getCell_setCell p p _ hwfc hin hin]
    rw [if_pos rfl]
    simp
  · intro q hq hqp hqm
    rw [heq]
    rw [show (getCell (mapCells
        { setCell { b with firstClick := false } p
            { getCell b p with state := .exploded } with gameStatus := GameStatus.lost }
        (fun _ c => if c.hasMine ∧ c.state ≠ .exploded then { c with state := .mine } else c))
        q) = _ from getCell_mapCells _ q hwset hq]
    rw [show getCell { setCell { b with firstClick := false } p
        { getCell b p with state := .exploded } with gameStatus := GameStatus.lost } q = _ from
      getCell_setCell p q _ hwfc hin hq]
    rw [if_neg hqp]
    show (if (getCell b q).hasMine = true ∧ (getCell b q).state ≠ .exploded then
        { getCell b q with state := .mine } else getCell b q).state = _
    by_cases hex : (getCell b q).state = .exploded
    · rw [if_neg (by simp [hex]), if_pos hex]
      exact hex
    · rw [if_pos ⟨hqm, hex⟩, if_neg hex]

/-- Claim C5 counterexample: a playing 1×1 board whose only cell is a
flagged mine.  `revealCell` at that mine is a no-op (flag guard), so the
status stays `playing` — revealing "any cell with hasMine = true" does
not always lose. -/
theorem loss_detection_cex :
    flaggedMineBoard.gameStatus = GameStatus.playing ∧
      (getCell flaggedMineBoard ⟨0, 0⟩).hasMine = true ∧
      (revealCell flaggedMineBoard ⟨0, 0⟩).gameStatus ≠ GameStatus.lost := by
  refine ⟨rfl, by decide, by decide⟩

/-- Claim C5 witness: revealing the mine at (0,3) of the two-mine board
loses, explodes the target, and shows the other mine. -/
theorem loss_detection_witness :
    (WellFormed twoMineBoard ∧ twoMineBoard.gameStatus = .playing ∧
      inBounds twoMineBoard ⟨0, 3⟩ ∧
      ¬((getCell twoMineBoard ⟨0, 3⟩).state = .revealed ∨
        (getCell twoMineBoard ⟨0, 3⟩).state = .flagged) ∧
      (getCell twoMineBoard ⟨0, 3⟩).hasMine = true) ∧
    (revealCell twoMineBoard ⟨0, 3⟩).gameStatus = .lost ∧
    (getCell (revealCell twoMineBoard ⟨0, 3⟩) ⟨0, 3⟩).state = .exploded ∧
    (getCell (revealCell twoMineBoard ⟨0, 3⟩) ⟨0, 2⟩).state =
      (if (getCell twoMineBoard ⟨0, 2⟩).state = .exploded then .exploded else .mine) := by
  have hyps : WellFormed twoMineBoard ∧ twoMineBoard.gameStatus = .playing ∧
      inBounds twoMineBoard ⟨0, 3⟩ ∧
      ¬((getCell twoMineBoard ⟨0, 3⟩).state = .revealed ∨
        (getCell twoMineBoard ⟨0, 3⟩).state = .flagged) ∧
      (getCell twoMineBoard ⟨0, 3⟩).hasMine = true := by
    refine ⟨⟨by decide, by decide⟩, by decide, by decide, by decide, by decide⟩
  obtain ⟨hA, hB, hC, hD, hE⟩ := hyps
  have hmain := loss_detection twoMineBoard ⟨0, 3⟩ hA hB hC hD hE
  exact ⟨⟨hA, hB, hC, hD, hE⟩, hmain.1, hmain.2.1,
    hmain.2.2 ⟨0, 2⟩ (by decide) (by decide) (by decide)⟩

/-! ## Claim C8 — out-of-bounds positions are no-ops -/

/-- Claim C8: for every board and every out-of-bounds position, both
`revealCell` and `toggleFlag` return the board unmodified. -/
theorem oob_noop (b : Board) (p : Pos)
    (h : p.row < 0 ∨ p.row ≥ (b.height : Int) ∨ p.col < 0 ∨ p.col ≥ (b.width : Int)) :
    revealCell b p = b ∧ toggleFlag b p = b :=
  ⟨revealCell_oob h, toggleFlag_oob h⟩

/-! ## Claim C9 — the logical branch is dead -/

theorem findLogicalMoves_eq_nil (b : Board) : findLogicalMoves b = [] := by
  unfold findLogicalMoves
  refine foldl_fixed _ _ ?_ []
  intro acc row
  refine foldl_fixed _ _ ?_ acc
  intro acc2 col
  dsimp only
  split
  · split
    · rfl
    · rfl
  · rfl

/-- Claim C9: `findLogicalMoves` always returns the empty list (the
detection branch `continue`s without collecting), so `analyzeBoard`
never produces a hint classified `logical`. -/
theorem logical_branch_dead (b : Board) :
    findLogicalMoves b = [] ∧
      ∀ r : HintResult, analyzeBoard b = some r → r.moveType ≠ MoveType.logical := by
  refine ⟨findLogicalMoves_eq_nil b, ?_⟩
  intro r hr
  unfold analyzeBoard at hr
  split at hr
  · exact absurd hr (by simp)
  · dsimp only at hr
    split at hr
    · obtain rfl := Option.some.inj hr
      intro hc
      dsimp only at hc
      exact MoveType.noConfusion hc
    · split at hr
      · next hlen =>
        rw [findLogicalMoves_eq_nil] at hlen
        exact absurd hlen (by simp)
      · split at hr
        · next heq =>
          obtain rfl := Option.some.inj hr
          intro hc
          dsimp only at hc
          exact MoveType.noConfusion hc
        · exact absurd hr (by simp)

/-- Claim C9 witness: on the reachable wrongly-flagged 2×2 board the
hint engine does produce a hint, and it is not `logical`. -/
theorem logical_branch_dead_witness :
    findLogicalMoves wrongFlagBoard = [] ∧
      ({ suggestedMove := ⟨1, 1⟩, moveType := .safe, confidence := 1,
         reasoning := "This cell is safe because the 1 at (1, 1) already has all its mines flagged." } :
        HintResult).moveType ≠ MoveType.logical :=
  ⟨(logical_branch_dead wrongFlagBoard).1,
   (logical_branch_dead wrongFlagBoard).2 _ (by decide)⟩

/-! ## Claim C10 — adaptive mine count -/

/-- Claim C10: with fewer than 3 recorded games `calculateMineCount`
returns the preferred tier's base mine count unmodified; otherwise it
returns `max(⌊0.7·baseMines⌋, min(maxMines, baseMines + adjustment))`
where the adjustment is the sum of the win-rate band, recent-trend,
streak-bonus and hint-overuse adjustments, so the result always lies
between `⌊0.7·baseMines⌋` and the tier's `maxMines` inclusive. -/
theorem mineCount_formula_bounds (stats : PlayerStats) :
    (stats.gamesPlayed < 3 →
      calculateMineCount stats = (difficultySettings stats.preferredDifficulty).baseMines) ∧
    (3 ≤ stats.gamesPlayed →
      (calculateMineCount stats =
        max ⌊((difficultySettings stats.preferredDifficulty).baseMines : Rat) * mkRat 7 10⌋
          (min (difficultySettings stats.preferredDifficulty).maxMines
            ((difficultySettings stats.preferredDifficulty).baseMines +
              ((if Rat.divInt (stats.gamesWon : Int) (stats.gamesPlayed : Int) > mkRat 4 5
                then 3
                else if Rat.divInt (stats.gamesWon : Int) (stats.gamesPlayed : Int) > mkRat 3 5
                then 1
                else if Rat.divInt (stats.gamesWon : Int) (stats.gamesPlayed : Int) < mkRat 3 10
                then -3
                else if Rat.divInt (stats.gamesWon : Int) (stats.gamesPlayed : Int) < mkRat 1 2
                then -1
                else 0) +
               (if (analyzeRecentPerformance stats).1 = .improving ∧
                    (analyzeRecentPerformance stats).2 > mkRat 7 10 then 1
                else if (analyzeRecentPerformance stats).1 = .declining ∧
                    (analyzeRecentPerformance stats).2 > mkRat 7 10 then -1
                else 0) +
               (if stats.currentStreak ≥ 5 then 2
                else if stats.currentStreak ≤ -3 then -2
                else 0) +
               (if Rat.divInt (stats.hintsUsed : Int) (stats.gamesPlayed : Int) > 3 then -1
                else 0))))) ∧
      ⌊((difficultySettings stats.preferredDifficulty).baseMines : Rat) * mkRat 7 10⌋ ≤
        calculateMineCount stats ∧
      calculateMineCount stats ≤ (difficultySettings stats.preferredDifficulty).maxMines) := by
  constructor
  · intro h
    unfold calculateMineCount
    rw [if_pos h]
  · intro h
    have hn : ¬stats.gamesPlayed < 3 := by omega
    unfold calculateMineCount
    rw [if_neg hn]
    refine ⟨rfl, le_max_left _ _, ?_⟩
    have h1 : ⌊((difficultySettings stats.preferredDifficulty).baseMines : Rat) * mkRat 7 10⌋ ≤
        (difficultySettings stats.preferredDifficulty).maxMines := by
      cases stats.preferredDifficulty <;> decide
    exact max_le h1 (min_le_left _ _)

/-- Claim C10 witness: a new player keeps the base count; a veteran's
count stays between the floor bound and the tier maximum. -/
theorem mineCount_formula_bounds_witness :
    (newPlayerStats.gamesPlayed < 3 ∧
      calculateMineCount newPlayerStats =
        (difficultySettings newPlayerStats.preferredDifficulty).baseMines) ∧
    (3 ≤ veteranStats.gamesPlayed ∧
      ⌊((difficultySettings veteranStats.preferredDifficulty).baseMines : Rat) * mkRat 7 10⌋ ≤
        calculateMineCount veteranStats ∧
      calculateMineCount veteranStats ≤
        (difficultySettings veteranStats.preferredDifficulty).maxMines) :=
  ⟨⟨by decide, (mineCount_formula_bounds newPlayerStats).1 (by decide)⟩,
   ⟨by decide, ((mineCount_formula_bounds veteranStats).2 (by decide)).2.1,
    ((mineCount_formula_bounds veteranStats).2 (by decide)).2.2⟩⟩

/-- Claim C8 witness: a concrete out-of-bounds request on a 1×1 board. -/
theorem oob_noop_witness :
    ((5 : Int) < 0 ∨ (5 : Int) ≥ (tinyRevealedBoard.height : Int) ∨ (0 : Int) < 0 ∨
      (0 : Int) ≥ (tinyRevealedBoard.width : Int)) ∧
    revealCell tinyRevealedBoard ⟨5, 0⟩ = tinyRevealedBoard ∧
      toggleFlag tinyRevealedBoard ⟨5, 0⟩ = tinyRevealedBoard :=
  ⟨by decide, oob_noop tinyRevealedBoard ⟨5, 0⟩ (by decide)⟩


/-! ## Claim C1 — safe-move soundness -/

/-- Claim C1 (amended): for every board reachable through the public
operations (`generateBoard`, `revealCell`, `toggleFlag`) on which the
player's flags are all correct — every flagged cell holds a mine —
every position returned by `findSafeMoves` refers to a cell with
`hasMine = false`.  The correct-flags hypothesis cannot be dropped:
`findSafeMoves` trusts flags, and a wrongly flagged neighbour makes it
report the actual mine as safe (see the counterexample). -/
theorem safe_move_soundness (b : Board) (hreach : Reachable b)
    (hflags : FlagsCorrect b) :
    ∀ q ∈ findSafeMoves b, (getCell b q).hasMine = false := by
  intro q hq
  obtain ⟨hw, hc, hr⟩ := reachable_invariant hreach
  obtain ⟨x, hxin, hxrev, hxpos, hxflag, hqadj, hqhid⟩ := of_mem_findSafeMoves hq
  cases hqm : (getCell b q).hasMine with
  | false => rfl
  | true =>
    exfalso
    have hxm : (getCell b x).hasMine = false := hr x hxin hxrev
    have hclue : (getCell b x).adjacentMines = countAdjacentMines b x := hc x hxin hxm
    have hfc : (((getAdjacentPositions b x).map (getCell b)).filter
        fun c => c.state = .flagged).length =
        (getAdjacentPositions b x).countP
          fun pos => decide ((getCell b pos).state = CellState.flagged) := by
      rw [← List.countP_eq_length_filter, List.countP_map]
      rfl
    have hmc : countAdjacentMines b x =
        (((getAdjacentPositions b x).countP fun pos => (getCell b pos).hasMine : Nat) : Int) := by
      unfold countAdjacentMines
      rw [← List.countP_eq_length_filter]
    have himp : ∀ y ∈ getAdjacentPositions b x,
        decide ((getCell b y).state = CellState.flagged) = true →
        (getCell b y).hasMine = true := by
      intro y hy hyf
      exact hflags y (inBounds_of_mem_adjacent hy) (of_decide_eq_true hyf)
    have hqnf : decide ((getCell b q).state = CellState.flagged) = false := by
      rw [hqhid]
      rfl
    have hlt := countP_lt_countP
      (fun pos => decide ((getCell b pos).state = CellState.flagged))
      (fun pos => (getCell b pos).hasMine) himp hqadj hqm hqnf
    rw [hclue, hmc, hfc] at hxflag
    omega

/-- Claim C1 counterexample: the wrongly-flagged 2×2 board is reachable
(generate, reveal (0,0), flag the mine-free cell (0,1)), yet
`findSafeMoves` reports the actual mine (1,1) as safe — the original
unconditional claim is false. -/
theorem safe_move_unsound_cex :
    Reachable wrongFlagBoard ∧
    (⟨1, 1⟩ : Pos) ∈ findSafeMoves wrongFlagBoard ∧
    (getCell wrongFlagBoard ⟨1, 1⟩).hasMine = true :=
  ⟨Reachable.flag _ _ (Reachable.reveal _ _
      (Reachable.generated 2 2 1 none (fun _ _ => 0)
        [⟨1, 1⟩, ⟨0, 0⟩, ⟨0, 1⟩, ⟨1, 0⟩] (by decide))),
   by decide, by decide⟩

/-- Claim C1 witness: on the correctly-flagged reachable 2×2 board the
flags are all correct, (1,0) is reported safe, and it indeed carries no
mine. -/
theorem safe_move_soundness_witness :
    Reachable rightFlagBoard ∧ FlagsCorrect rightFlagBoard ∧
    ((⟨1, 0⟩ : Pos) ∈ findSafeMoves rightFlagBoard ∧
      (getCell rightFlagBoard ⟨1, 0⟩).hasMine = false) := by
  have hreach : Reachable rightFlagBoard :=
    Reachable.flag _ _ (Reachable.reveal _ _
      (Reachable.generated 2 2 1 none (fun _ _ => 0)
        [⟨1, 1⟩, ⟨0, 0⟩, ⟨0, 1⟩, ⟨1, 0⟩] (by decide)))
  have hflags : FlagsCorrect rightFlagBoard := by
    intro p hp hpf
    obtain ⟨h1, h2, h3, h4⟩ := hp
    rw [show (rightFlagBoard.height : Int) = 2 from by decide] at h2
    rw [show (rightFlagBoard.width : Int) = 2 from by decide] at h4
    have hrow : p.row = 0 ∨ p.row = 1 := by omega
    have hcol : p.col = 0 ∨ p.col = 1 := by omega
    rcases hrow with h5 | h5 <;> rcases hcol with h6 | h6
    · rw [show p = (⟨0, 0⟩ : Pos) from by rw [Pos.ext_iff]; exact ⟨h5, h6⟩] at hpf
      exact absurd hpf (by decide)
    · rw [show p = (⟨0, 1⟩ : Pos) from by rw [Pos.ext_iff]; exact ⟨h5, h6⟩] at hpf
      exact absurd hpf (by decide)
    · rw [show p = (⟨1, 0⟩ : Pos) from by rw [Pos.ext_iff]; exact ⟨h5, h6⟩] at hpf
      exact absurd hpf (by decide)
    · rw [show p = (⟨1, 1⟩ : Pos) from by rw [Pos.ext_iff]; exact ⟨h5, h6⟩]
      decide
  have hmem : (⟨1, 0⟩ : Pos) ∈ findSafeMoves rightFlagBoard := by decide
  exact ⟨hreach, hflags,
    ⟨hmem, safe_move_soundness rightFlagBoard hreach hflags ⟨1, 0⟩ hmem⟩⟩

end Minesweeper
